import Mathlib

/-!
Verification of the symlink-aware parent-resolution engine of `real_parent`
(`src/lib.rs`), shallowly embedded in Lean 4.

Paths are modelled as lists of components (the result of Rust's
`Path::components()` parse on Unix: no `Prefix` components).  The filesystem
is an abstract record of the three read-only probes the library performs:
`symlink_metadata` (modelled by `lookup`, returning the kind of the entry
without following a final symlink, or `none` for an IO failure),
`read_link` (`readLink`) and `canonicalize`.

The mutually recursive resolver (`RealPath::parent`, `symlink_parent`,
`dir_parent`, `file_parent`, `join`, `clean`) is embedded with an explicit
fuel parameter; `none` at the outer `Option` layer means the fuel ran out,
and is never confused with a result of the program.  Rust panics
(`unwrap` on a missing parent, the `panic!` arm of `join`) are modelled by
the explicit `Res.panic` constructor carrying the panic site.
-/

/-- A single path component, as produced by `Path::components()` on Unix. -/
inductive Component where
  | rootDir
  | curDir
  | parentDir
  | normal (s : String)
deriving DecidableEq, Repr

/-- A path: the ordered list of its components. The empty string parses to `[]`. -/
abbrev RPath := List Component

/-- Result of `symlink_metadata` classification: symlink, directory, or plain file. -/
inductive FileKind where
  | symlink
  | dir
  | file
deriving DecidableEq, Repr

/-- The abstract filesystem: the three read-only probes used by the library.
`lookup` models `Path::symlink_metadata` (classification without following a
final symlink; `none` is an IO failure such as a missing entry),
`readLink` models `Path::read_link`, and `canonicalize` models
`Path::canonicalize`. -/
structure Fs where
  lookup : RPath → Option FileKind
  readLink : RPath → Option RPath
  canonicalize : RPath → Option RPath

/-- The library's internal error type (`enum Error` in `src/lib.rs`):
an IO error carrying the sub-path being probed, or a symlink cycle carrying
the path of the symlink where the loop closed. -/
inductive Error where
  | io (path : RPath)
  | cycle (path : RPath)
deriving DecidableEq, Repr

/-- Sites in the code where a Rust panic could occur: the three
`path.parent().unwrap()` calls, and the `panic!` arm of `join` for an
absolute component in the relative part. -/
inductive PanicSite where
  | symlinkUnwrap
  | dirUnwrap
  | fileUnwrap
  | joinAbs
deriving DecidableEq, Repr

/-- Outcome of a resolver call: a successful path, a library error, or a panic. -/
inductive Res where
  | ok (p : RPath)
  | err (e : Error)
  | panic (site : PanicSite)
deriving DecidableEq, Repr

/-- The normalization performed by `Path::components()` when a component list
is re-collected (`path.components().collect::<PathBuf>()`): occurrences of
`.` are dropped, except at the very beginning of the path. -/
def componentsOf : RPath → RPath
  | [] => []
  | c :: rest => c :: rest.filter (fun x => x != Component.curDir)

/-- `Path::file_name()`: the final component when it is a normal name. -/
def fileName (p : RPath) : Option String :=
  match (componentsOf p).getLast? with
  | some (Component.normal s) => some s
  | _ => none

/-- `Path::parent()`: the path without its final component; `none` when the
path is empty or terminates in the root. -/
def parentPath (p : RPath) : Option RPath :=
  match (componentsOf p).getLast? with
  | none => none
  | some Component.rootDir => none
  | some _ => some (componentsOf p).dropLast

/-- Whether a component is a root/prefix marker (`matches!(c, Prefix(_) | RootDir)`;
on Unix only `RootDir` exists). -/
def isAbsComp : Component → Bool
  | Component.rootDir => true
  | _ => false

/-- `RealPath::dir_parent`: parent of a path classified as a directory. -/
def dirParent (path : RPath) : Res :=
  match fileName path with
  | some _ =>
    match parentPath path with
    | some pp => Res.ok pp
    | none => Res.panic PanicSite.dirUnwrap
  | none =>
    if path = [Component.curDir] then
      Res.ok [Component.parentDir]
    else
      match (componentsOf path).getLast? with
      | none => Res.ok (path ++ [Component.parentDir])
      | some Component.parentDir => Res.ok (path ++ [Component.parentDir])
      | some _ => Res.ok path

/-- `RealPath::file_parent`: parent of a path classified as a plain file. -/
def fileParent (path : RPath) : Res :=
  match parentPath path with
  | some pp => Res.ok pp
  | none => Res.panic PanicSite.fileUnwrap

mutual

/-- `RealPath::parent`: the symlink-aware parent.  The visited-symlink set is
threaded explicitly (it is a `&mut self` field in Rust); fuel bounds the
recursion depth, with `none` meaning the fuel ran out. -/
def rpParent (fs : Fs) : Nat → List RPath → RPath → Option (List RPath × Res)
  | 0, _, _ => none
  | fuel + 1, visited, path =>
    if path = [] then
      some (visited, Res.ok [Component.parentDir])
    else
      match fs.lookup (componentsOf path) with
      | none => some (visited, Res.err (Error.io (componentsOf path)))
      | some FileKind.symlink => symlinkParent fs fuel visited (componentsOf path)
      | some FileKind.dir => some (visited, dirParent (componentsOf path))
      | some FileKind.file => some (visited, fileParent (componentsOf path))
termination_by fuel _ _ => (fuel, 0)
decreasing_by
  all_goals simp_wf
  exact Prod.Lex.left _ _ (Nat.lt_succ_self _)

/-- `RealPath::symlink_parent`: record the symlink in the visited set (before
any recursion), fail with `Cycle` if already present, otherwise read the link
target, resolve it against the symlink's own directory via `join`, and recurse. -/
def symlinkParent (fs : Fs) : Nat → List RPath → RPath → Option (List RPath × Res)
  | 0, _, _ => none
  | fuel + 1, visited, path =>
    if path ∈ visited then
      some (visited, Res.err (Error.cycle path))
    else
      match fs.readLink path with
      | none => some (path :: visited, Res.err (Error.io path))
      | some target =>
        match parentPath path with
        | none => some (path :: visited, Res.panic PanicSite.symlinkUnwrap)
        | some symlinkDir =>
          match rpJoin fs fuel (path :: visited) symlinkDir target with
          | none => none
          | some (v2, Res.ok resolved) => rpParent fs fuel v2 resolved
          | some (v2, r) => some (v2, r)
termination_by fuel _ _ => (fuel, 0)
decreasing_by
  all_goals simp_wf
  all_goals exact Prod.Lex.left _ _ (Nat.lt_succ_self _)

/-- `RealPath::join`: partition `other`'s components into root and relative
parts (Rust's `partition` keeps order, i.e. it is the pair of filters), seed
the resolving path at the root part if any, else at `origin`, then walk the
relative part. -/
def rpJoin (fs : Fs) : Nat → List RPath → RPath → RPath → Option (List RPath × Res)
  | fuel, visited, origin, other =>
    joinGo fs fuel visited
      (if (componentsOf other).filter (fun c => isAbsComp c) = [] then origin
       else (componentsOf other).filter (fun c => isAbsComp c))
      ((componentsOf other).filter (fun c => !isAbsComp c))
termination_by fuel _ _ other => (fuel, (componentsOf other).length + 2)
decreasing_by
  exact Prod.Lex.right _ (Nat.succ_lt_succ (Nat.lt_succ_of_le (List.length_filter_le _ _)))

/-- The component walk of `RealPath::join`: `.` is dropped, a root component
in the relative part is the `panic!` arm, `..` invokes the parent resolver on
the resolving path, a normal name is pushed verbatim. -/
def joinGo (fs : Fs) : Nat → List RPath → RPath → List Component → Option (List RPath × Res)
  | _, visited, resolving, [] => some (visited, Res.ok resolving)
  | fuel, visited, resolving, c :: rest =>
    match c with
    | Component.curDir => joinGo fs fuel visited resolving rest
    | Component.rootDir => some (visited, Res.panic PanicSite.joinAbs)
    | Component.parentDir =>
      match rpParent fs fuel visited resolving with
      | none => none
      | some (v2, Res.ok p) => joinGo fs fuel v2 p rest
      | some (v2, r) => some (v2, r)
    | Component.normal s => joinGo fs fuel visited (resolving ++ [Component.normal s]) rest
termination_by fuel _ _ rest => (fuel, rest.length + 1)
decreasing_by
  all_goals simp_wf
  all_goals first
  | exact Prod.Lex.right _ (Nat.lt_succ_self _)
  | exact Prod.Lex.right _ (Nat.succ_pos _)

end

/-- `RealPath::clean`: `join("", path)`. -/
def rpClean (fs : Fs) (fuel : Nat) (visited : List RPath) (path : RPath) :
    Option (List RPath × Res) :=
  rpJoin fs fuel visited [] path

/-- `empty_to_dot`: an empty result is normalized to `.`. -/
def emptyToDot (p : RPath) : RPath :=
  if p = [] then [Component.curDir] else p

/-- `PathExt::real_parent`: run the resolver with a fresh visited set and
normalize an empty result to `.`. -/
def realParent (fs : Fs) (fuel : Nat) (path : RPath) : Option Res :=
  match rpParent fs fuel [] path with
  | none => none
  | some (_, Res.ok p) => some (Res.ok (emptyToDot p))
  | some (_, r) => some r

/-- `PathExt::real_clean`: run `clean` with a fresh visited set and
normalize an empty result to `.`. -/
def realClean (fs : Fs) (fuel : Nat) (path : RPath) : Option Res :=
  match rpClean fs fuel [] path with
  | none => none
  | some (_, Res.ok p) => some (Res.ok (emptyToDot p))
  | some (_, r) => some r

/-- `PathExt::is_real_root`: canonicalize (empty path treated as `.`) and test
whether the last structural component is the root marker.  `none` models the
IO failure of `canonicalize`; the code `unwrap`s the last component of the
canonical path (asserting it nonempty), so the empty-canonical case is mapped
to `some false` here and never arises for the filesystems considered. -/
def isRealRoot (fs : Fs) (path : RPath) : Option Bool :=
  let p := if path = [] then [Component.curDir] else path
  match fs.canonicalize p with
  | none => none
  | some canon =>
    match canon.getLast? with
    | some Component.rootDir => some true
    | _ => some false

/-- Iterated application of `real_parent`, threading successful results. -/
def iterParent (fs : Fs) (fuel : Nat) : Nat → RPath → Option Res
  | 0, p => some (Res.ok p)
  | n + 1, p =>
    match realParent fs fuel p with
    | some (Res.ok q) => iterParent fs fuel n q
    | r => r

/-! ### Basic lemmas about the path primitives -/

theorem componentsOf_idem (p : RPath) : componentsOf (componentsOf p) = componentsOf p := by
  cases p with
  | nil => rfl
  | cons c rest =>
    simp [componentsOf, List.filter_filter]

theorem componentsOf_eq_self (p : RPath) (h : ∀ c ∈ p, c ≠ Component.curDir) :
    componentsOf p = p := by
  cases p with
  | nil => rfl
  | cons c rest =>
    simp only [componentsOf, List.cons.injEq, true_and]
    refine List.filter_eq_self.mpr ?_
    intro a ha
    simpa using h a (List.mem_cons_of_mem _ ha)

theorem parentPath_of_getLast_normal (p : RPath) (s : String)
    (hp : componentsOf p = p) (h : p.getLast? = some (Component.normal s)) :
    parentPath p = some p.dropLast := by
  unfold parentPath
  rw [hp, h]

theorem fileName_of_getLast_normal (p : RPath) (s : String)
    (hp : componentsOf p = p) (h : p.getLast? = some (Component.normal s)) :
    fileName p = some s := by
  unfold fileName
  rw [hp, h]

theorem fileName_of_getLast_not_normal (p : RPath) (c : Component)
    (hp : componentsOf p = p) (h : p.getLast? = some c)
    (hc : ∀ s, c ≠ Component.normal s) : fileName p = none := by
  unfold fileName
  rw [hp, h]
  cases c with
  | normal s => exact absurd rfl (hc s)
  | rootDir => rfl
  | curDir => rfl
  | parentDir => rfl

theorem dirParent_dotdot (q : RPath) (hq : componentsOf q = q)
    (h : q.getLast? = some Component.parentDir) :
    dirParent q = Res.ok (q ++ [Component.parentDir]) := by
  have hfn : fileName q = none :=
    fileName_of_getLast_not_normal q _ hq h (fun s => by simp)
  have hne : q ≠ [Component.curDir] := by
    intro hcontra
    rw [hcontra] at h
    simp at h
  unfold dirParent
  rw [hfn, if_neg hne, hq, h]

theorem dirParent_root (q : RPath) (hq : componentsOf q = q)
    (h : q.getLast? = some Component.rootDir) : dirParent q = Res.ok q := by
  have hfn : fileName q = none :=
    fileName_of_getLast_not_normal q _ hq h (fun s => by simp)
  have hne : q ≠ [Component.curDir] := by
    intro hcontra
    rw [hcontra] at h
    simp at h
  unfold dirParent
  rw [hfn, if_neg hne, hq, h]

theorem dirParent_named (q : RPath) (s : String) (hq : componentsOf q = q)
    (h : q.getLast? = some (Component.normal s)) : dirParent q = Res.ok q.dropLast := by
  unfold dirParent
  rw [fileName_of_getLast_normal q s hq h, parentPath_of_getLast_normal q s hq h]

theorem fileParent_named (q : RPath) (s : String) (hq : componentsOf q = q)
    (h : q.getLast? = some (Component.normal s)) : fileParent q = Res.ok q.dropLast := by
  unfold fileParent
  rw [parentPath_of_getLast_normal q s hq h]

theorem rpParent_dir (fs : Fs) (fuel : Nat) (visited : List RPath) (p : RPath)
    (hne : p ≠ []) (h : fs.lookup (componentsOf p) = some FileKind.dir) :
    rpParent fs (fuel + 1) visited p = some (visited, dirParent (componentsOf p)) := by
  simp [rpParent, hne, h]

theorem rpParent_file (fs : Fs) (fuel : Nat) (visited : List RPath) (p : RPath)
    (hne : p ≠ []) (h : fs.lookup (componentsOf p) = some FileKind.file) :
    rpParent fs (fuel + 1) visited p = some (visited, fileParent (componentsOf p)) := by
  simp [rpParent, hne, h]

theorem rpParent_symlink (fs : Fs) (fuel : Nat) (visited : List RPath) (p : RPath)
    (hne : p ≠ []) (h : fs.lookup (componentsOf p) = some FileKind.symlink) :
    rpParent fs (fuel + 1) visited p = symlinkParent fs fuel visited (componentsOf p) := by
  simp [rpParent, hne, h]

/-! ### Concrete filesystems used as witnesses and counterexamples -/

/-- A filesystem knowing only that `..` is a directory. -/
def fsDotDot : Fs where
  lookup := fun p => if p = [Component.parentDir] then some FileKind.dir else none
  readLink := fun _ => none
  canonicalize := fun _ => none

/-- A filesystem with directory `A/B` containing a relative symlink `L -> b`
and the plain file `b`; nothing outside `A/B` exists. -/
def fsSibling : Fs where
  lookup := fun p =>
    if p = [Component.normal "A", Component.normal "B", Component.normal "L"] then
      some FileKind.symlink
    else if p = [Component.normal "A", Component.normal "B", Component.normal "b"] then
      some FileKind.file
    else none
  readLink := fun p =>
    if p = [Component.normal "A", Component.normal "B", Component.normal "L"] then
      some [Component.normal "b"]
    else none
  canonicalize := fun _ => none

/-- A filesystem with two symlinks forming a loop: `A/a1 -> a2`, `A/a2 -> a1`. -/
def fsLoop : Fs where
  lookup := fun p =>
    if p = [Component.normal "A", Component.normal "a1"] then some FileKind.symlink
    else if p = [Component.normal "A", Component.normal "a2"] then some FileKind.symlink
    else none
  readLink := fun p =>
    if p = [Component.normal "A", Component.normal "a1"] then some [Component.normal "a2"]
    else if p = [Component.normal "A", Component.normal "a2"] then some [Component.normal "a1"]
    else none
  canonicalize := fun _ => none

/-- A filesystem containing only the root directory. -/
def fsRootOnly : Fs where
  lookup := fun p => if p = [Component.rootDir] then some FileKind.dir else none
  readLink := fun _ => none
  canonicalize := fun p => if p = [Component.rootDir] then some [Component.rootDir] else none

/-- A small symlink-free tree: `/`, directory `/a`, plain file `/a/b`. -/
def fsTree : Fs where
  lookup := fun p =>
    if p = [Component.rootDir] then some FileKind.dir
    else if p = [Component.rootDir, Component.normal "a"] then some FileKind.dir
    else if p = [Component.rootDir, Component.normal "a", Component.normal "b"] then
      some FileKind.file
    else none
  readLink := fun _ => none
  canonicalize := fun p => if p = [Component.rootDir] then some [Component.rootDir] else none

/-- The filesystem where every probe fails. -/
def fsNothing : Fs where
  lookup := fun _ => none
  readLink := fun _ => none
  canonicalize := fun _ => none

/-! ### Claim C5 -/

/-- C5: `real_parent("")` returns `..` for every filesystem and without any
probe (the empty-path branch never consults `fs`), and `real_parent("..")`
returns `../..` whenever the filesystem classifies `..` as a directory:
the parent of a bare ascent is a further ascent, never an error, and the
leading dotdot chain is not folded away. -/
theorem claim_C5_dotdot_base :
    (∀ (fs : Fs) (fuel : Nat),
      realParent fs (fuel + 1) [] = some (Res.ok [Component.parentDir])) ∧
    (∀ (fs : Fs) (fuel : Nat),
      fs.lookup [Component.parentDir] = some FileKind.dir →
      realParent fs (fuel + 1) [Component.parentDir] =
        some (Res.ok [Component.parentDir, Component.parentDir])) := by
  constructor
  · intro fs fuel
    simp [realParent, rpParent, emptyToDot]
  · intro fs fuel h
    have hcomp : componentsOf [Component.parentDir] = [Component.parentDir] := rfl
    have hd := rpParent_dir fs fuel [] [Component.parentDir] (by simp) (by rw [hcomp]; exact h)
    have hdir : dirParent [Component.parentDir] =
        Res.ok ([Component.parentDir] ++ [Component.parentDir]) :=
      dirParent_dotdot _ hcomp rfl
    rw [hcomp] at hd
    simp [realParent, hd, hdir, emptyToDot]

/-- C5 witness at the concrete filesystem `fsDotDot`. -/
theorem claim_C5_witness :
    realParent fsDotDot 1 [] = some (Res.ok [Component.parentDir]) ∧
    realParent fsDotDot 1 [Component.parentDir] =
      some (Res.ok [Component.parentDir, Component.parentDir]) :=
  ⟨claim_C5_dotdot_base.1 fsDotDot 0,
   claim_C5_dotdot_base.2 fsDotDot 0 (by simp [fsDotDot])⟩

/-! ### Claim C7 -/

/-- C7: when the target handed to `join` contains a root component (an
absolute symlink target), the result does not depend on the origin directory
at all: resolution restarts from the target's root, independent of the
symlink's own location. -/
theorem claim_C7_absolute_target_independent (fs : Fs) (fuel : Nat)
    (visited : List RPath) (d1 d2 target : RPath)
    (h : ∃ c ∈ componentsOf target, isAbsComp c) :
    rpJoin fs fuel visited d1 target = rpJoin fs fuel visited d2 target := by
  have hne : (componentsOf target).filter (fun c => isAbsComp c) ≠ [] := by
    obtain ⟨c, hc, habs⟩ := h
    intro hnil
    have := List.filter_eq_nil_iff.mp hnil c hc
    simp [habs] at this
  simp [rpJoin, hne]

/-- C7 witness: joining the absolute target `/b` onto the two distinct
origins `A` and `B` gives the same result. -/
theorem claim_C7_witness :
    rpJoin fsNothing 1 [] [Component.normal "A"] [Component.rootDir, Component.normal "b"] =
      rpJoin fsNothing 1 [] [Component.normal "B"] [Component.rootDir, Component.normal "b"] :=
  claim_C7_absolute_target_independent fsNothing 1 [] _ _ _
    ⟨Component.rootDir, by simp [componentsOf], by simp [isAbsComp]⟩

/-! ### Claim C3 -/

/-- C3 counterexample: for the filesystem root path `/` — a directory whose
component list has no file name (spec: "no final component at all, i.e. it
denotes the filesystem root") — `real_parent` returns the path itself, not
the path with a literal `..` appended as the claim states. -/
theorem claim_C3_counterexample :
    realParent fsRootOnly 1 [Component.rootDir] = some (Res.ok [Component.rootDir]) ∧
    realParent fsRootOnly 1 [Component.rootDir] ≠
      some (Res.ok ([Component.rootDir] ++ [Component.parentDir])) := by
  have h : realParent fsRootOnly 1 [Component.rootDir] = some (Res.ok [Component.rootDir]) := by
    simp [realParent, rpParent, fsRootOnly, componentsOf, dirParent, fileName,
      parentPath, emptyToDot]
  exact ⟨h, by rw [h]; simp⟩

/-- C3 amended: a directory-classified path whose final component is `..`
gets a literal `..` appended, and so does the empty path (no components at
all — which denotes the current directory, not the root); but a path whose
final component is the root marker is its own parent, returned unchanged. -/
theorem claim_C3_dotdot_appended :
    (∀ (fs : Fs) (fuel : Nat) (visited : List RPath) (p : RPath), p ≠ [] →
      fs.lookup (componentsOf p) = some FileKind.dir →
      (componentsOf p).getLast? = some Component.parentDir →
      rpParent fs (fuel + 1) visited p =
        some (visited, Res.ok (componentsOf p ++ [Component.parentDir]))) ∧
    (∀ (fs : Fs) (fuel : Nat) (visited : List RPath),
      rpParent fs (fuel + 1) visited ([] : RPath) =
        some (visited, Res.ok (([] : RPath) ++ [Component.parentDir]))) ∧
    (∀ (fs : Fs) (fuel : Nat) (visited : List RPath) (p : RPath), p ≠ [] →
      fs.lookup (componentsOf p) = some FileKind.dir →
      (componentsOf p).getLast? = some Component.rootDir →
      rpParent fs (fuel + 1) visited p = some (visited, Res.ok (componentsOf p))) := by
  refine ⟨?_, ?_, ?_⟩
  · intro fs fuel visited p hne hdir hlast
    rw [rpParent_dir fs fuel visited p hne hdir,
      dirParent_dotdot _ (componentsOf_idem p) hlast]
  · intro fs fuel visited
    simp [rpParent]
  · intro fs fuel visited p hne hdir hlast
    rw [rpParent_dir fs fuel visited p hne hdir,
      dirParent_root _ (componentsOf_idem p) hlast]

/-- C3 amended witness: `..` (a directory in `fsDotDot`) gets `..` appended;
the empty path becomes `..`; the root (a directory in `fsRootOnly`) is
returned unchanged. -/
theorem claim_C3_witness :
    rpParent fsDotDot 1 [] [Component.parentDir] =
      some ([], Res.ok (componentsOf [Component.parentDir] ++ [Component.parentDir])) ∧
    rpParent fsDotDot 1 [] ([] : RPath) =
      some ([], Res.ok (([] : RPath) ++ [Component.parentDir])) ∧
    rpParent fsRootOnly 1 [] [Component.rootDir] =
      some ([], Res.ok (componentsOf [Component.rootDir])) :=
  ⟨claim_C3_dotdot_appended.1 fsDotDot 0 [] _ (by simp) (by simp [fsDotDot, componentsOf]) rfl,
   claim_C3_dotdot_appended.2.1 fsDotDot 0 [],
   claim_C3_dotdot_appended.2.2 fsRootOnly 0 [] _ (by simp)
     (by simp [fsRootOnly, componentsOf]) rfl⟩

/-! ### Claim C8 counterexample -/

/-- C8 counterexample: `join` called with a second argument containing a root
component does not panic: the `partition` in `join` moves root components out
of the walked relative part, so the call succeeds, restarting resolution from
the root.  Here `join("a", "/b")` returns `/b`. -/
theorem claim_C8_counterexample :
    rpJoin fsNothing 1 [] [Component.normal "a"] [Component.rootDir, Component.normal "b"] =
      some ([], Res.ok [Component.rootDir, Component.normal "b"]) ∧
    ∀ v site,
      rpJoin fsNothing 1 [] [Component.normal "a"] [Component.rootDir, Component.normal "b"] ≠
        some (v, Res.panic site) := by
  have h : rpJoin fsNothing 1 [] [Component.normal "a"]
      [Component.rootDir, Component.normal "b"] =
      some ([], Res.ok [Component.rootDir, Component.normal "b"]) := by
    simp [rpJoin, joinGo, componentsOf, isAbsComp]
  exact ⟨h, by intro v site; rw [h]; simp⟩

/-! ### Claim C1 -/

/-- C1: for a relative symlink `L` inside directory `A/B` whose target is the
sibling name `b` with `A/B/b` a plain file, `real_parent("A/B/L") = "A/B"`.
The hypotheses constrain the filesystem only at the two entries inside `A/B`
(`A/B/L` and `A/B/b`); every other path may fail to exist, so the resolution
touches and requires nothing outside `A/B`. -/
theorem claim_C1_minimal_resolution (a b l t : String) (fs : Fs) (fuel : Nat)
    (hL : fs.lookup [Component.normal a, Component.normal b, Component.normal l] =
      some FileKind.symlink)
    (hT : fs.readLink [Component.normal a, Component.normal b, Component.normal l] =
      some [Component.normal t])
    (hb : fs.lookup [Component.normal a, Component.normal b, Component.normal t] =
      some FileKind.file) :
    realParent fs (fuel + 3) [Component.normal a, Component.normal b, Component.normal l] =
      some (Res.ok [Component.normal a, Component.normal b]) := by
  simp [realParent, rpParent, symlinkParent, rpJoin, joinGo, componentsOf, parentPath,
    fileName, fileParent, emptyToDot, isAbsComp, hL, hT, hb]

/-- C1 witness at `fsSibling`, where nothing outside `A/B` exists at all. -/
theorem claim_C1_witness :
    realParent fsSibling 3 [Component.normal "A", Component.normal "B", Component.normal "L"] =
      some (Res.ok [Component.normal "A", Component.normal "B"]) :=
  claim_C1_minimal_resolution "A" "B" "L" "b" fsSibling 0
    (by simp [fsSibling]) (by simp [fsSibling]) (by simp [fsSibling])

/-! ### Claim C2 -/

/-- C2: with the two-symlink loop `A/a1 -> a2`, `A/a2 -> a1`,
`real_parent("A/a1")` fails with `Cycle` naming `A/a1`, the symlink whose
re-entry closed the loop; and in general, since the symlink's identity is
inserted into the visited set before recursing, re-encountering any symlink
already in the visited set fails immediately with `Cycle` naming that
symlink's path instead of recursing further. -/
theorem claim_C2_cycle_detection :
    (realParent fsLoop 6 [Component.normal "A", Component.normal "a1"] =
      some (Res.err (Error.cycle [Component.normal "A", Component.normal "a1"]))) ∧
    (∀ (fs : Fs) (fuel : Nat) (visited : List RPath) (p : RPath), p ≠ [] →
      fs.lookup (componentsOf p) = some FileKind.symlink →
      componentsOf p ∈ visited →
      rpParent fs (fuel + 2) visited p =
        some (visited, Res.err (Error.cycle (componentsOf p)))) := by
  constructor
  · simp [realParent, rpParent, symlinkParent, rpJoin, joinGo, componentsOf, parentPath,
      fileName, emptyToDot, isAbsComp, fsLoop]
  · intro fs fuel visited p hne hsym hvis
    rw [show fuel + 2 = (fuel + 1) + 1 from rfl,
      rpParent_symlink fs (fuel + 1) visited p hne hsym]
    simp [symlinkParent, hvis]

/-- C2 witness: the general re-encounter clause applied at `fsLoop` with
`A/a1` already in the visited set. -/
theorem claim_C2_witness :
    rpParent fsLoop 2 [[Component.normal "A", Component.normal "a1"]]
      [Component.normal "A", Component.normal "a1"] =
      some ([[Component.normal "A", Component.normal "a1"]],
        Res.err (Error.cycle
          (componentsOf [Component.normal "A", Component.normal "a1"]))) :=
  claim_C2_cycle_detection.2 fsLoop 0 _ _ (by simp) (by simp [fsLoop, componentsOf])
    (by simp [componentsOf])

/-! ### Claim C4 -/

/-- An absolute path built from a list of plain names. -/
def absPath (names : List String) : RPath :=
  Component.rootDir :: names.map Component.normal

theorem componentsOf_absPath (names : List String) :
    componentsOf (absPath names) = absPath names := by
  apply componentsOf_eq_self
  intro c hc
  rcases List.mem_cons.mp hc with h | h
  · rw [h]; simp
  · obtain ⟨s, _, rfl⟩ := List.mem_map.mp h
    simp

theorem absPath_concat (ns : List String) (s : String) :
    absPath (ns ++ [s]) = absPath ns ++ [Component.normal s] := by
  simp [absPath]

theorem realParent_root (fs : Fs) (fuel : Nat)
    (hroot : fs.lookup [Component.rootDir] = some FileKind.dir) :
    realParent fs (fuel + 1) [Component.rootDir] = some (Res.ok [Component.rootDir]) := by
  have h := rpParent_dir fs fuel [] [Component.rootDir] (by simp)
    (by simpa [componentsOf] using hroot)
  rw [show componentsOf [Component.rootDir] = [Component.rootDir] from rfl] at h
  rw [dirParent_root [Component.rootDir] rfl rfl] at h
  simp [realParent, h, emptyToDot]

theorem iterParent_root (fs : Fs)
    (hroot : fs.lookup [Component.rootDir] = some FileKind.dir) :
    ∀ m, iterParent fs 1 m [Component.rootDir] = some (Res.ok [Component.rootDir]) := by
  intro m
  induction m with
  | zero => simp [iterParent]
  | succ n ih => simp [iterParent, realParent_root fs 0 hroot, ih]

theorem realParent_absPath_step (fs : Fs) (ns : List String) (s : String) (fk : FileKind)
    (hk : fs.lookup (absPath (ns ++ [s])) = some fk) (hfk : fk ≠ FileKind.symlink) :
    realParent fs 1 (absPath (ns ++ [s])) = some (Res.ok (absPath ns)) := by
  have hcomp := componentsOf_absPath (ns ++ [s])
  have hne : absPath (ns ++ [s]) ≠ [] := by simp [absPath]
  have hlast : (absPath (ns ++ [s])).getLast? = some (Component.normal s) := by
    rw [absPath_concat]
    exact List.getLast?_concat _
  have hdrop : (absPath (ns ++ [s])).dropLast = absPath ns := by
    rw [absPath_concat]
    exact List.dropLast_concat
  have hResOk : ∀ h1 : rpParent fs 1 [] (absPath (ns ++ [s])) =
      some ([], Res.ok (absPath ns)), realParent fs 1 (absPath (ns ++ [s])) =
        some (Res.ok (absPath ns)) := by
    intro h1
    simp only [realParent]
    rw [h1]
    simp [emptyToDot, absPath]
  cases fk with
  | symlink => exact absurd rfl hfk
  | dir =>
    apply hResOk
    rw [show (1 : Nat) = 0 + 1 from rfl, rpParent_dir fs 0 [] _ hne (by rwa [hcomp]), hcomp,
      dirParent_named _ s hcomp hlast, hdrop]
  | file =>
    apply hResOk
    rw [show (1 : Nat) = 0 + 1 from rfl, rpParent_file fs 0 [] _ hne (by rwa [hcomp]), hcomp,
      fileParent_named _ s hcomp hlast, hdrop]

theorem iterParent_descend (fs : Fs)
    (hroot : fs.lookup [Component.rootDir] = some FileKind.dir) :
    ∀ (m : Nat) (names : List String),
      (∀ k, 1 ≤ k → k ≤ names.length →
        ∃ fk, fs.lookup (absPath (names.take k)) = some fk ∧ fk ≠ FileKind.symlink) →
      names.length ≤ m →
      iterParent fs 1 m (absPath names) = some (Res.ok [Component.rootDir]) := by
  intro m
  induction m with
  | zero =>
    intro names _ hlen
    have hnil : names = [] := List.eq_nil_of_length_eq_zero (Nat.le_zero.mp hlen)
    subst hnil
    simp [iterParent, absPath]
  | succ n ih =>
    intro names hnosym hlen
    rcases List.eq_nil_or_concat names with rfl | ⟨ns, s, rfl⟩
    · simpa [absPath] using iterParent_root fs hroot (n + 1)
    · rw [List.concat_eq_append] at *
      obtain ⟨fk, hkk, hfk⟩ := hnosym (ns.length + 1) (by omega) (by simp)
      rw [show (ns ++ [s]).take (ns.length + 1) = ns ++ [s] from by simp] at hkk
      have hstep := realParent_absPath_step fs ns s fk hkk hfk
      rw [iterParent, hstep]
      apply ih ns ?_ (by simp at hlen; omega)
      intro k hk1 hk2
      have := hnosym k hk1 (by simp; omega)
      rwa [List.take_append_of_le_length hk2] at this

/-! ### Inversion lemmas for the resolver -/

theorem getLast_of_fileName_some (q : RPath) (s : String) (h : fileName q = some s) :
    (componentsOf q).getLast? = some (Component.normal s) := by
  unfold fileName at h
  split at h
  · next heq =>
      rw [heq]
      injection h with h'
      rw [h']
  · exact absurd h (by simp)

theorem parentPath_of_fileName_some (q : RPath) (s : String) (h : fileName q = some s) :
    parentPath q = some (componentsOf q).dropLast := by
  have hl := getLast_of_fileName_some q s h
  unfold parentPath
  rw [hl]

theorem dirParent_ne_panic (q : RPath) (site : PanicSite) : dirParent q ≠ Res.panic site := by
  intro h
  unfold dirParent at h
  split at h
  · next s heq =>
      rw [parentPath_of_fileName_some q s heq] at h
      simp at h
  · split at h
    · simp at h
    · split at h <;> simp at h

theorem dirParent_ne_err (q : RPath) (e : Error) : dirParent q ≠ Res.err e := by
  intro h
  unfold dirParent at h
  split at h
  · split at h <;> simp at h
  · split at h
    · simp at h
    · split at h <;> simp at h

theorem fileParent_panic_site (q : RPath) (site : PanicSite)
    (h : fileParent q = Res.panic site) : site = PanicSite.fileUnwrap := by
  unfold fileParent at h
  split at h
  · simp at h
  · injection h with h'
    exact h'.symm

theorem fileParent_ne_err (q : RPath) (e : Error) : fileParent q ≠ Res.err e := by
  intro h
  unfold fileParent at h
  split at h <;> simp at h

theorem rpParent_cases (fs : Fs) (g : Nat) (visited : List RPath) (path : RPath)
    (v' : List RPath) (r : Res) (h : rpParent fs (g + 1) visited path = some (v', r)) :
    (path = [] ∧ v' = visited ∧ r = Res.ok [Component.parentDir]) ∨
    (path ≠ [] ∧ fs.lookup (componentsOf path) = none ∧ v' = visited ∧
      r = Res.err (Error.io (componentsOf path))) ∨
    (path ≠ [] ∧ fs.lookup (componentsOf path) = some FileKind.symlink ∧
      symlinkParent fs g visited (componentsOf path) = some (v', r)) ∨
    (path ≠ [] ∧ fs.lookup (componentsOf path) = some FileKind.dir ∧ v' = visited ∧
      r = dirParent (componentsOf path)) ∨
    (path ≠ [] ∧ fs.lookup (componentsOf path) = some FileKind.file ∧ v' = visited ∧
      r = fileParent (componentsOf path)) := by
  rw [rpParent] at h
  split at h
  · next hp =>
      injection h with h'
      injection h' with h1 h2
      exact Or.inl ⟨hp, h1.symm, h2.symm⟩
  · next hp =>
      split at h
      · next hq =>
          injection h with h'
          injection h' with h1 h2
          exact Or.inr (Or.inl ⟨hp, hq, h1.symm, h2.symm⟩)
      · next hq =>
          exact Or.inr (Or.inr (Or.inl ⟨hp, hq, h⟩))
      · next hq =>
          injection h with h'
          injection h' with h1 h2
          exact Or.inr (Or.inr (Or.inr (Or.inl ⟨hp, hq, h1.symm, h2.symm⟩)))
      · next hq =>
          injection h with h'
          injection h' with h1 h2
          exact Or.inr (Or.inr (Or.inr (Or.inr ⟨hp, hq, h1.symm, h2.symm⟩)))

theorem symlinkParent_cases (fs : Fs) (g : Nat) (visited : List RPath) (p : RPath)
    (v' : List RPath) (r : Res) (h : symlinkParent fs (g + 1) visited p = some (v', r)) :
    (p ∈ visited ∧ v' = visited ∧ r = Res.err (Error.cycle p)) ∨
    (p ∉ visited ∧ fs.readLink p = none ∧ v' = p :: visited ∧ r = Res.err (Error.io p)) ∨
    (p ∉ visited ∧ (∃ target, fs.readLink p = some target) ∧ parentPath p = none ∧
      v' = p :: visited ∧ r = Res.panic PanicSite.symlinkUnwrap) ∨
    (p ∉ visited ∧ ∃ target sd v2 resolved, fs.readLink p = some target ∧
      parentPath p = some sd ∧
      rpJoin fs g (p :: visited) sd target = some (v2, Res.ok resolved) ∧
      rpParent fs g v2 resolved = some (v', r)) ∨
    (p ∉ visited ∧ (∀ w, r ≠ Res.ok w) ∧ ∃ target sd, fs.readLink p = some target ∧
      parentPath p = some sd ∧
      rpJoin fs g (p :: visited) sd target = some (v', r)) := by
  rw [symlinkParent] at h
  split at h
  · next hp =>
      injection h with h'
      injection h' with h1 h2
      exact Or.inl ⟨hp, h1.symm, h2.symm⟩
  · next hp =>
      split at h
      · next hrl =>
          injection h with h'
          injection h' with h1 h2
          exact Or.inr (Or.inl ⟨hp, hrl, h1.symm, h2.symm⟩)
      · next target hrl =>
          split at h
          · next hpp =>
              injection h with h'
              injection h' with h1 h2
              exact Or.inr (Or.inr (Or.inl ⟨hp, ⟨target, hrl⟩, hpp, h1.symm, h2.symm⟩))
          · next sd hpp =>
              split at h
              · exact absurd h (by simp)
              · next v2 resolved hj =>
                  exact Or.inr (Or.inr (Or.inr (Or.inl
                    ⟨hp, target, sd, v2, resolved, hrl, hpp, hj, h⟩)))
              · next v2 r2 hne hj =>
                  injection h with h'
                  injection h' with h1 h2
                  rw [h1, h2] at hj
                  rw [h2] at hne
                  exact Or.inr (Or.inr (Or.inr (Or.inr
                    ⟨hp, fun w hw => hne w hw, target, sd, hrl, hpp, hj⟩)))

theorem joinGo_nil (fs : Fs) (fuel : Nat) (visited : List RPath) (rsv : RPath)
    (v' : List RPath) (r : Res) (h : joinGo fs fuel visited rsv [] = some (v', r)) :
    v' = visited ∧ r = Res.ok rsv := by
  rw [joinGo] at h
  injection h with h'
  injection h' with h1 h2
  exact ⟨h1.symm, h2.symm⟩

theorem joinGo_cons_cases (fs : Fs) (fuel : Nat) (visited : List RPath) (rsv : RPath)
    (c : Component) (rest : List Component) (v' : List RPath) (r : Res)
    (h : joinGo fs fuel visited rsv (c :: rest) = some (v', r)) :
    (c = Component.curDir ∧ joinGo fs fuel visited rsv rest = some (v', r)) ∨
    (c = Component.rootDir ∧ v' = visited ∧ r = Res.panic PanicSite.joinAbs) ∨
    (∃ v2 p2, c = Component.parentDir ∧ rpParent fs fuel visited rsv = some (v2, Res.ok p2) ∧
      joinGo fs fuel v2 p2 rest = some (v', r)) ∨
    (c = Component.parentDir ∧ rpParent fs fuel visited rsv = some (v', r)) ∨
    (∃ s, c = Component.normal s ∧
      joinGo fs fuel visited (rsv ++ [Component.normal s]) rest = some (v', r)) := by
  cases c with
  | curDir =>
      rw [joinGo] at h
      exact Or.inl ⟨rfl, h⟩
  | rootDir =>
      rw [joinGo] at h
      injection h with h'
      injection h' with h1 h2
      exact Or.inr (Or.inl ⟨rfl, h1.symm, h2.symm⟩)
  | parentDir =>
      rw [joinGo] at h
      split at h
      · exact absurd h (by simp)
      · next v2 p2 hpar =>
          exact Or.inr (Or.inr (Or.inl ⟨v2, p2, rfl, hpar, h⟩))
      · next v2 r2 hpar =>
          injection h with h'
          injection h' with h1 h2
          rw [h1, h2] at hpar
          exact Or.inr (Or.inr (Or.inr (Or.inl ⟨rfl, hpar⟩)))
  | normal s =>
      rw [joinGo] at h
      exact Or.inr (Or.inr (Or.inr (Or.inr ⟨s, rfl, h⟩)))

theorem rpJoin_eq (fs : Fs) (fuel : Nat) (visited : List RPath) (o t : RPath) :
    rpJoin fs fuel visited o t =
      joinGo fs fuel visited
        (if (componentsOf t).filter (fun c => isAbsComp c) = [] then o
         else (componentsOf t).filter (fun c => isAbsComp c))
        ((componentsOf t).filter (fun c => !isAbsComp c)) := by
  rw [rpJoin]

/-! ### The panic arm of join is unreachable -/

/-- For every fuel, no resolver function ever produces the `panic!` of
`join`'s root-component arm: the relative part walked by `join` is a filter
that removed all root components. -/
theorem noJoinAbsAux (fs : Fs) : ∀ fuel : Nat,
    (∀ visited p v' r, rpParent fs fuel visited p = some (v', r) →
      r ≠ Res.panic PanicSite.joinAbs) ∧
    (∀ visited p v' r, symlinkParent fs fuel visited p = some (v', r) →
      r ≠ Res.panic PanicSite.joinAbs) ∧
    (∀ visited rsv rest v' r, (∀ c ∈ rest, c ≠ Component.rootDir) →
      joinGo fs fuel visited rsv rest = some (v', r) → r ≠ Res.panic PanicSite.joinAbs) ∧
    (∀ visited o t v' r, rpJoin fs fuel visited o t = some (v', r) →
      r ≠ Res.panic PanicSite.joinAbs) := by
  intro fuel
  induction fuel using Nat.strong_induction_on with
  | _ fuel ih =>
    have hsym : ∀ visited p v' r, symlinkParent fs fuel visited p = some (v', r) →
        r ≠ Res.panic PanicSite.joinAbs := by
      intro visited p v' r h
      cases fuel with
      | zero =>
          rw [symlinkParent] at h
          exact absurd h (by simp)
      | succ g =>
          rcases symlinkParent_cases fs g visited p v' r h with
            ⟨_, _, hr⟩ | ⟨_, _, _, hr⟩ | ⟨_, _, _, _, hr⟩ |
            ⟨_, t, sd, v2, res, _, _, _, hpar⟩ | ⟨_, _, t, sd, _, _, hjoin⟩
          · rw [hr]; simp
          · rw [hr]; simp
          · rw [hr]; simp
          · exact (ih g (Nat.lt_succ_self g)).1 v2 res v' r hpar
          · exact (ih g (Nat.lt_succ_self g)).2.2.2 _ sd t v' r hjoin
    have hpar : ∀ visited p v' r, rpParent fs fuel visited p = some (v', r) →
        r ≠ Res.panic PanicSite.joinAbs := by
      intro visited p v' r h
      cases fuel with
      | zero =>
          rw [rpParent] at h
          exact absurd h (by simp)
      | succ g =>
          rcases rpParent_cases fs g visited p v' r h with
            ⟨_, _, hr⟩ | ⟨_, _, _, hr⟩ | ⟨_, _, hs⟩ | ⟨_, _, _, hr⟩ | ⟨_, _, _, hr⟩
          · rw [hr]; simp
          · rw [hr]; simp
          · exact (ih g (Nat.lt_succ_self g)).2.1 visited _ v' r hs
          · rw [hr]; exact dirParent_ne_panic _ _
          · rw [hr]
            intro hcon
            exact absurd (fileParent_panic_site _ _ hcon) (by simp)
    have hgo : ∀ rest visited rsv v' r, (∀ c ∈ rest, c ≠ Component.rootDir) →
        joinGo fs fuel visited rsv rest = some (v', r) →
        r ≠ Res.panic PanicSite.joinAbs := by
      intro rest
      induction rest with
      | nil =>
          intro visited rsv v' r _ h
          obtain ⟨_, hr⟩ := joinGo_nil fs fuel visited rsv v' r h
          rw [hr]; simp
      | cons c rest ihr =>
          intro visited rsv v' r hnr h
          rcases joinGo_cons_cases fs fuel visited rsv c rest v' r h with
            ⟨_, hg⟩ | ⟨hc, _, _⟩ | ⟨v2, p2, _, _, hg⟩ | ⟨_, hp2⟩ | ⟨s, _, hg⟩
          · exact ihr _ _ _ _ (fun c hc => hnr c (List.mem_cons_of_mem _ hc)) hg
          · exact absurd hc (hnr c (List.mem_cons_self c rest))
          · exact ihr _ _ _ _ (fun c hc => hnr c (List.mem_cons_of_mem _ hc)) hg
          · exact hpar _ _ _ _ hp2
          · exact ihr _ _ _ _ (fun c hc => hnr c (List.mem_cons_of_mem _ hc)) hg
    have hjoin : ∀ visited o t v' r, rpJoin fs fuel visited o t = some (v', r) →
        r ≠ Res.panic PanicSite.joinAbs := by
      intro visited o t v' r h
      rw [rpJoin_eq] at h
      refine hgo _ _ _ _ _ ?_ h
      intro c hc hcon
      have hmem := List.of_mem_filter hc
      rw [hcon] at hmem
      simp [isAbsComp] at hmem
    exact ⟨hpar, hsym, fun visited rsv rest => hgo rest visited rsv, hjoin⟩

/-- C8 amended: `join` never reaches its `panic!` arm — the partition removes
every root/prefix component from the walked relative part, so a root
component in the second argument restarts resolution from the root instead
of failing. -/
theorem claim_C8_never_joinabs_panic (fs : Fs) (fuel : Nat) (visited : List RPath)
    (o t : RPath) (v' : List RPath) (r : Res)
    (h : rpJoin fs fuel visited o t = some (v', r)) : r ≠ Res.panic PanicSite.joinAbs :=
  (noJoinAbsAux fs fuel).2.2.2 visited o t v' r h

/-- C8 amended witness: the concrete absolute-target join succeeds and its
result is not the panic. -/
theorem claim_C8_amended_witness :
    Res.ok [Component.rootDir, Component.normal "b"] ≠ Res.panic PanicSite.joinAbs :=
  claim_C8_never_joinabs_panic fsNothing 1 [] [Component.normal "a"]
    [Component.rootDir, Component.normal "b"] [] _
    (by simp [rpJoin, joinGo, componentsOf, isAbsComp])

/-- What each error kind carries: an `io` error names a path whose probe
(`symlink_metadata` or `read_link`) failed; a `cycle` error names a path the
filesystem classifies as a symlink. -/
def errCarries (fs : Fs) : Error → Prop
  | Error.io q => fs.lookup q = none ∨
      (fs.lookup q = some FileKind.symlink ∧ fs.readLink q = none)
  | Error.cycle q => fs.lookup q = some FileKind.symlink

/-- For every fuel, every error produced by the resolver is sound: an `io`
error carries the sub-path whose probe failed, a `cycle` error carries a path
classified as a symlink (the one whose re-entry closed the loop). -/
theorem errSoundAux (fs : Fs) : ∀ fuel : Nat,
    (∀ visited p v' e, rpParent fs fuel visited p = some (v', Res.err e) →
      errCarries fs e) ∧
    (∀ visited p v' e, fs.lookup p = some FileKind.symlink →
      symlinkParent fs fuel visited p = some (v', Res.err e) → errCarries fs e) ∧
    (∀ visited rsv rest v' e, joinGo fs fuel visited rsv rest = some (v', Res.err e) →
      errCarries fs e) ∧
    (∀ visited o t v' e, rpJoin fs fuel visited o t = some (v', Res.err e) →
      errCarries fs e) := by
  intro fuel
  induction fuel using Nat.strong_induction_on with
  | _ fuel ih =>
    have hsym : ∀ visited p v' e, fs.lookup p = some FileKind.symlink →
        symlinkParent fs fuel visited p = some (v', Res.err e) → errCarries fs e := by
      intro visited p v' e hlook h
      cases fuel with
      | zero =>
          rw [symlinkParent] at h
          exact absurd h (by simp)
      | succ g =>
          rcases symlinkParent_cases fs g visited p v' (Res.err e) h with
            ⟨_, _, hr⟩ | ⟨_, hrl, _, hr⟩ | ⟨_, _, _, _, hr⟩ |
            ⟨_, t, sd, v2, res, _, _, _, hp2⟩ | ⟨_, _, t, sd, _, _, hjoin⟩
          · injection hr with hr'
            rw [hr']
            exact hlook
          · injection hr with hr'
            rw [hr']
            exact Or.inr ⟨hlook, hrl⟩
          · exact absurd hr (by simp)
          · exact (ih g (Nat.lt_succ_self g)).1 v2 res v' e hp2
          · exact (ih g (Nat.lt_succ_self g)).2.2.2 _ sd t v' e hjoin
    have hpar : ∀ visited p v' e, rpParent fs fuel visited p = some (v', Res.err e) →
        errCarries fs e := by
      intro visited p v' e h
      cases fuel with
      | zero =>
          rw [rpParent] at h
          exact absurd h (by simp)
      | succ g =>
          rcases rpParent_cases fs g visited p v' (Res.err e) h with
            ⟨_, _, hr⟩ | ⟨_, hq, _, hr⟩ | ⟨_, hq, hs⟩ | ⟨_, _, _, hr⟩ | ⟨_, _, _, hr⟩
          · exact absurd hr (by simp)
          · injection hr with hr'
            rw [hr']
            exact Or.inl hq
          · exact (ih g (Nat.lt_succ_self g)).2.1 visited _ v' e hq hs
          · exact absurd hr.symm (dirParent_ne_err _ _)
          · exact absurd hr.symm (fileParent_ne_err _ _)
    have hgo : ∀ rest visited rsv v' e,
        joinGo fs fuel visited rsv rest = some (v', Res.err e) → errCarries fs e := by
      intro rest
      induction rest with
      | nil =>
          intro visited rsv v' e h
          obtain ⟨_, hr⟩ := joinGo_nil fs fuel visited rsv v' (Res.err e) h
          exact absurd hr (by simp)
      | cons c rest ihr =>
          intro visited rsv v' e h
          rcases joinGo_cons_cases fs fuel visited rsv c rest v' (Res.err e) h with
            ⟨_, hg⟩ | ⟨_, _, hr⟩ | ⟨v2, p2, _, _, hg⟩ | ⟨_, hp2⟩ | ⟨s, _, hg⟩
          · exact ihr _ _ _ _ hg
          · exact absurd hr (by simp)
          · exact ihr _ _ _ _ hg
          · exact hpar _ _ _ _ hp2
          · exact ihr _ _ _ _ hg
    have hjoin : ∀ visited o t v' e, rpJoin fs fuel visited o t = some (v', Res.err e) →
        errCarries fs e := by
      intro visited o t v' e h
      rw [rpJoin_eq] at h
      exact hgo _ _ _ _ _ h
    exact ⟨hpar, hsym, fun visited rsv rest => hgo rest visited rsv, hjoin⟩

/-- Well-formedness of a filesystem, as guaranteed by real platforms: an
entry that classifies as a symlink or plain file (anything but a directory)
sits under a normal final name — paths ending in `.`, `..` or the root always
classify as directories. -/
def wfFs (fs : Fs) : Prop :=
  ∀ p k, fs.lookup p = some k → k ≠ FileKind.dir →
    ∃ s, p.getLast? = some (Component.normal s)

theorem parentPath_of_wf (fs : Fs) (hwf : wfFs fs) (p : RPath) (k : FileKind)
    (hcomp : componentsOf p = p) (hk : fs.lookup p = some k) (hkd : k ≠ FileKind.dir) :
    parentPath p = some p.dropLast := by
  obtain ⟨s, hlast⟩ := hwf p k hk hkd
  unfold parentPath
  rw [hcomp, hlast]

/-- On a well-formed filesystem, no resolver function ever produces one of
the three `unwrap` panics: any panic would have to be `join`'s (itself
unreachable, see `noJoinAbsAux`). -/
theorem noUnwrapAux (fs : Fs) (hwf : wfFs fs) : ∀ fuel : Nat,
    (∀ visited p v' r site, rpParent fs fuel visited p = some (v', r) →
      r = Res.panic site → site = PanicSite.joinAbs) ∧
    (∀ visited p v' r site, componentsOf p = p → fs.lookup p = some FileKind.symlink →
      symlinkParent fs fuel visited p = some (v', r) →
      r = Res.panic site → site = PanicSite.joinAbs) ∧
    (∀ visited rsv rest v' r site, joinGo fs fuel visited rsv rest = some (v', r) →
      r = Res.panic site → site = PanicSite.joinAbs) ∧
    (∀ visited o t v' r site, rpJoin fs fuel visited o t = some (v', r) →
      r = Res.panic site → site = PanicSite.joinAbs) := by
  intro fuel
  induction fuel using Nat.strong_induction_on with
  | _ fuel ih =>
    have hsym : ∀ visited p v' r site, componentsOf p = p →
        fs.lookup p = some FileKind.symlink → symlinkParent fs fuel visited p = some (v', r) →
        r = Res.panic site → site = PanicSite.joinAbs := by
      intro visited p v' r site hcomp hlook h hr
      subst hr
      cases fuel with
      | zero =>
          rw [symlinkParent] at h
          exact absurd h (by simp)
      | succ g =>
          rcases symlinkParent_cases fs g visited p v' (Res.panic site) h with
            ⟨_, _, hr⟩ | ⟨_, _, _, hr⟩ | ⟨_, _, hpp, _, _⟩ |
            ⟨_, t, sd, v2, res, _, _, _, hp2⟩ | ⟨_, _, t, sd, _, _, hjoin⟩
          · exact absurd hr (by simp)
          · exact absurd hr (by simp)
          · rw [parentPath_of_wf fs hwf p FileKind.symlink hcomp hlook (by simp)] at hpp
            exact absurd hpp (by simp)
          · exact (ih g (Nat.lt_succ_self g)).1 v2 res v' _ site hp2 rfl
          · exact (ih g (Nat.lt_succ_self g)).2.2.2 _ sd t v' _ site hjoin rfl
    have hpar : ∀ visited p v' r site, rpParent fs fuel visited p = some (v', r) →
        r = Res.panic site → site = PanicSite.joinAbs := by
      intro visited p v' r site h hr
      subst hr
      cases fuel with
      | zero =>
          rw [rpParent] at h
          exact absurd h (by simp)
      | succ g =>
          rcases rpParent_cases fs g visited p v' (Res.panic site) h with
            ⟨_, _, hr⟩ | ⟨_, _, _, hr⟩ | ⟨_, hq, hs⟩ | ⟨_, _, _, hr⟩ | ⟨_, hq, _, hr⟩
          · exact absurd hr (by simp)
          · exact absurd hr (by simp)
          · exact (ih g (Nat.lt_succ_self g)).2.1 visited _ v' _ site
              (componentsOf_idem p) hq hs rfl
          · exact absurd hr.symm (dirParent_ne_panic _ _)
          · exfalso
            have hpp := parentPath_of_wf fs hwf (componentsOf p) FileKind.file
              (componentsOf_idem p) hq (by simp)
            unfold fileParent at hr
            rw [hpp] at hr
            simp at hr
    have hgo : ∀ rest visited rsv v' r site,
        joinGo fs fuel visited rsv rest = some (v', r) →
        r = Res.panic site → site = PanicSite.joinAbs := by
      intro rest
      induction rest with
      | nil =>
          intro visited rsv v' r site h hr
          subst hr
          obtain ⟨_, hr2⟩ := joinGo_nil fs fuel visited rsv v' _ h
          exact absurd hr2 (by simp)
      | cons c rest ihr =>
          intro visited rsv v' r site h hr
          subst hr
          rcases joinGo_cons_cases fs fuel visited rsv c rest v' (Res.panic site) h with
            ⟨_, hg⟩ | ⟨_, _, hr2⟩ | ⟨v2, p2, _, _, hg⟩ | ⟨_, hp2⟩ | ⟨s, _, hg⟩
          · exact ihr _ _ _ _ site hg rfl
          · injection hr2 with hr3
          · exact ihr _ _ _ _ site hg rfl
          · exact hpar _ _ _ _ site hp2 rfl
          · exact ihr _ _ _ _ site hg rfl
    have hjoin : ∀ visited o t v' r site, rpJoin fs fuel visited o t = some (v', r) →
        r = Res.panic site → site = PanicSite.joinAbs := by
      intro visited o t v' r site h hr
      rw [rpJoin_eq] at h
      exact hgo _ _ _ _ _ site h hr
    exact ⟨hpar, hsym, fun visited rsv rest => hgo rest visited rsv, hjoin⟩

/-! ### Claims C9 and C10 -/

theorem realParent_cases (fs : Fs) (fuel : Nat) (p : RPath) (r : Res)
    (h : realParent fs fuel p = some r) :
    (∃ v q, rpParent fs fuel [] p = some (v, Res.ok q) ∧ r = Res.ok (emptyToDot q)) ∨
    (∃ v, rpParent fs fuel [] p = some (v, r) ∧ ∀ q, r ≠ Res.ok q) := by
  unfold realParent at h
  split at h
  · exact absurd h (by simp)
  · next v q heq =>
      injection h with h'
      exact Or.inl ⟨v, q, heq, h'.symm⟩
  · next v r2 hno heq =>
      injection h with h'
      rw [h'] at heq hno
      exact Or.inr ⟨v, heq, fun q hq => hno q hq⟩

theorem realClean_cases (fs : Fs) (fuel : Nat) (p : RPath) (r : Res)
    (h : realClean fs fuel p = some r) :
    (∃ v q, rpJoin fs fuel [] [] p = some (v, Res.ok q) ∧ r = Res.ok (emptyToDot q)) ∨
    (∃ v, rpJoin fs fuel [] [] p = some (v, r) ∧ ∀ q, r ≠ Res.ok q) := by
  unfold realClean rpClean at h
  split at h
  · exact absurd h (by simp)
  · next v q heq =>
      injection h with h'
      exact Or.inl ⟨v, q, heq, h'.symm⟩
  · next v r2 hno heq =>
      injection h with h'
      rw [h'] at heq hno
      exact Or.inr ⟨v, heq, fun q hq => hno q hq⟩

/-- C9: every failure of `real_parent` or `real_clean` is exactly one of two
kinds, reported by distinct constructors: an `io` error carrying the specific
sub-path being probed when the failure occurred (either its classification
probe failed, or it is a symlink whose `read_link` failed), or a `cycle`
error carrying the path of the symlink where the loop closed. -/
theorem claim_C9_error_kinds (fs : Fs) (fuel : Nat) (p : RPath) (e : Error)
    (h : realParent fs fuel p = some (Res.err e) ∨ realClean fs fuel p = some (Res.err e)) :
    ((∃ q, e = Error.io q ∧ (fs.lookup q = none ∨
        (fs.lookup q = some FileKind.symlink ∧ fs.readLink q = none))) ∨
      (∃ q, e = Error.cycle q ∧ fs.lookup q = some FileKind.symlink)) ∧
    (∀ q q', (Error.io q : Error) ≠ Error.cycle q') := by
  constructor
  · have hcar : errCarries fs e := by
      rcases h with h | h
      · rcases realParent_cases fs fuel p _ h with ⟨v, q, _, hr⟩ | ⟨v, heq, _⟩
        · exact absurd hr (by simp)
        · exact (errSoundAux fs fuel).1 [] p v e heq
      · rcases realClean_cases fs fuel p _ h with ⟨v, q, _, hr⟩ | ⟨v, heq, _⟩
        · exact absurd hr (by simp)
        · exact (errSoundAux fs fuel).2.2.2 [] [] p v e heq
    cases e with
    | io q => exact Or.inl ⟨q, rfl, hcar⟩
    | cycle q => exact Or.inr ⟨q, rfl, hcar⟩
  · intro q q'
    simp

/-- C9 witness: probing a missing entry `x` yields an `io` error carrying `x`. -/
theorem claim_C9_witness :
    ((∃ q, (Error.io [Component.normal "x"] : Error) = Error.io q ∧
        (fsNothing.lookup q = none ∨ (fsNothing.lookup q = some FileKind.symlink ∧
          fsNothing.readLink q = none))) ∨
      (∃ q, (Error.io [Component.normal "x"] : Error) = Error.cycle q ∧
        fsNothing.lookup q = some FileKind.symlink)) ∧
    (∀ q q', (Error.io q : Error) ≠ Error.cycle q') :=
  claim_C9_error_kinds fsNothing 1 [Component.normal "x"] (Error.io [Component.normal "x"])
    (Or.inl (by simp [realParent, rpParent, fsNothing, componentsOf]))

/-- C10: on a well-formed filesystem (anything classified symlink or plain
file has a normal final name — true of real platforms, where paths ending in
`.`, `..` or the root always classify as directories), none of the three
`path.parent().unwrap()` calls ever panics for any input to `real_parent` or
`real_clean`; in `dir_parent` the unwrap is reached only under
`file_name() = Some`, which by itself already guarantees a syntactic parent. -/
theorem claim_C10_unwraps_never_panic (fs : Fs) (hwf : wfFs fs) (fuel : Nat) (p : RPath)
    (r : Res) (h : realParent fs fuel p = some r ∨ realClean fs fuel p = some r) :
    r ≠ Res.panic PanicSite.symlinkUnwrap ∧ r ≠ Res.panic PanicSite.dirUnwrap ∧
      r ≠ Res.panic PanicSite.fileUnwrap := by
  have key : ∀ site, r = Res.panic site → site = PanicSite.joinAbs := by
    intro site hr
    rcases h with h | h
    · rcases realParent_cases fs fuel p _ h with ⟨v, q, _, hr2⟩ | ⟨v, heq, _⟩
      · rw [hr] at hr2
        exact absurd hr2 (by simp)
      · exact (noUnwrapAux fs hwf fuel).1 [] p v r site heq hr
    · rcases realClean_cases fs fuel p _ h with ⟨v, q, _, hr2⟩ | ⟨v, heq, _⟩
      · rw [hr] at hr2
        exact absurd hr2 (by simp)
      · exact (noUnwrapAux fs hwf fuel).2.2.2 [] [] p v r site heq hr
  refine ⟨fun hcon => ?_, fun hcon => ?_, fun hcon => ?_⟩
  · exact absurd (key _ hcon) (by simp)
  · exact absurd (key _ hcon) (by simp)
  · exact absurd (key _ hcon) (by simp)

theorem wfFs_fsTree : wfFs fsTree := by
  intro p k h hk
  unfold fsTree at h
  simp only at h
  split_ifs at h with h1 h2 h3
  · injection h with h'
    rw [← h'] at hk
    exact absurd rfl hk
  · injection h with h'
    rw [← h'] at hk
    exact absurd rfl hk
  · exact ⟨"b", by rw [h3]; rfl⟩

/-- C10 witness at the symlink-free tree `fsTree`. -/
theorem claim_C10_witness :
    (Res.ok [Component.rootDir] : Res) ≠ Res.panic PanicSite.symlinkUnwrap ∧
    (Res.ok [Component.rootDir] : Res) ≠ Res.panic PanicSite.dirUnwrap ∧
    (Res.ok [Component.rootDir] : Res) ≠ Res.panic PanicSite.fileUnwrap :=
  claim_C10_unwraps_never_panic fsTree wfFs_fsTree 1
    [Component.rootDir, Component.normal "a"] (Res.ok [Component.rootDir])
    (Or.inl (by simp [realParent, rpParent, fsTree, componentsOf, dirParent, fileName,
      parentPath, emptyToDot]))

/-! ### Claim C6: shape invariant of clean results -/

/-- Every component of the list is a normal name. -/
def allNormal (l : RPath) : Prop := ∀ c ∈ l, ∃ s, c = Component.normal s

/-- The shape of every path the joiner ever holds as its resolving path: a
(possibly empty) run of `..` followed by normal names, or a (nonempty) run of
root markers followed by normal names. -/
def inR (p : RPath) : Prop :=
  (∃ k names, p = List.replicate k Component.parentDir ++ names ∧ allNormal names) ∨
  (∃ m names, p = List.replicate (m + 1) Component.rootDir ++ names ∧ allNormal names)

theorem allNormal_nil : allNormal [] := by
  intro c hc
  cases hc

theorem allNormal_concat (l : RPath) (s : String) (h : allNormal l) :
    allNormal (l ++ [Component.normal s]) := by
  intro c hc
  rcases List.mem_append.mp hc with h1 | h1
  · exact h c h1
  · exact ⟨s, by cases h1 with
      | head => rfl
      | tail _ h2 => cases h2⟩

theorem inR_nil : inR [] := Or.inl ⟨0, [], rfl, allNormal_nil⟩

theorem inR_push (p : RPath) (s : String) (h : inR p) :
    inR (p ++ [Component.normal s]) := by
  rcases h with ⟨k, names, rfl, hn⟩ | ⟨m, names, rfl, hn⟩
  · exact Or.inl ⟨k, names ++ [Component.normal s], by rw [List.append_assoc],
      allNormal_concat names s hn⟩
  · exact Or.inr ⟨m, names ++ [Component.normal s], by rw [List.append_assoc],
      allNormal_concat names s hn⟩

theorem inR_no_curDir (p : RPath) (h : inR p) : ∀ c ∈ p, c ≠ Component.curDir := by
  intro c hc
  rcases h with ⟨k, names, rfl, hn⟩ | ⟨m, names, rfl, hn⟩ <;>
    rcases List.mem_append.mp hc with h1 | h1
  · rw [List.eq_of_mem_replicate h1]; simp
  · obtain ⟨s, rfl⟩ := hn c h1; simp
  · rw [List.eq_of_mem_replicate h1]; simp
  · obtain ⟨s, rfl⟩ := hn c h1; simp

theorem componentsOf_inR (p : RPath) (h : inR p) : componentsOf p = p :=
  componentsOf_eq_self p (inR_no_curDir p h)

theorem inR_dropLast (p : RPath) (h : inR p) : inR p.dropLast := by
  rcases h with ⟨k, names, rfl, hn⟩ | ⟨m, names, rfl, hn⟩
  · rcases List.eq_nil_or_concat names with rfl | ⟨ns, x, rfl⟩
    · cases k with
      | zero => exact inR_nil
      | succ j =>
          rw [List.append_nil, List.replicate_succ', List.dropLast_concat]
          exact Or.inl ⟨j, [], (List.append_nil _).symm, allNormal_nil⟩
    · rw [List.concat_eq_append] at hn
      rw [List.concat_eq_append, ← List.append_assoc, List.dropLast_concat]
      exact Or.inl ⟨k, ns, rfl, fun c hc => hn c (List.mem_append_left _ hc)⟩
  · rcases List.eq_nil_or_concat names with rfl | ⟨ns, x, rfl⟩
    · cases m with
      | zero => exact inR_nil
      | succ j =>
          rw [List.append_nil, List.replicate_succ', List.dropLast_concat]
          exact Or.inr ⟨j, [], (List.append_nil _).symm, allNormal_nil⟩
    · rw [List.concat_eq_append] at hn
      rw [List.concat_eq_append, ← List.append_assoc, List.dropLast_concat]
      exact Or.inr ⟨m, ns, rfl, fun c hc => hn c (List.mem_append_left _ hc)⟩

theorem parentPath_some_eq (p d : RPath) (h : parentPath p = some d) :
    d = (componentsOf p).dropLast := by
  unfold parentPath at h
  split at h
  · exact absurd h (by simp)
  · exact absurd h (by simp)
  · injection h with h'
    exact h'.symm

theorem inR_parentPath (p d : RPath) (h : inR p) (hp : parentPath p = some d) : inR d := by
  rw [parentPath_some_eq p d hp, componentsOf_inR p h]
  exact inR_dropLast p h

theorem fileParent_ok (p q : RPath) (h : fileParent p = Res.ok q) : parentPath p = some q := by
  unfold fileParent at h
  split at h
  · next heq =>
      injection h with h'
      rw [heq, h']
  · exact absurd h (by simp)

theorem inR_getLast_cases (p : RPath) (h : inR p) :
    p = [] ∨
    (∃ s, p.getLast? = some (Component.normal s) ∧ inR p.dropLast) ∨
    (p.getLast? = some Component.parentDir ∧
      ∃ k, p = List.replicate (k + 1) Component.parentDir) ∨
    (p.getLast? = some Component.rootDir ∧
      ∃ m, p = List.replicate (m + 1) Component.rootDir) := by
  have hdrop := inR_dropLast p h
  rcases h with ⟨k, names, rfl, hn⟩ | ⟨m, names, rfl, hn⟩
  · rcases List.eq_nil_or_concat names with rfl | ⟨ns, x, rfl⟩
    · cases k with
      | zero => exact Or.inl rfl
      | succ j =>
          refine Or.inr (Or.inr (Or.inl ⟨?_, j, by rw [List.append_nil]⟩))
          rw [List.append_nil, List.replicate_succ']
          exact List.getLast?_concat _
    · obtain ⟨s, rfl⟩ := hn x (by rw [List.concat_eq_append]; exact List.mem_append_right _ (by simp))
      refine Or.inr (Or.inl ⟨s, ?_, hdrop⟩)
      rw [List.concat_eq_append, ← List.append_assoc]
      exact List.getLast?_concat _
  · rcases List.eq_nil_or_concat names with rfl | ⟨ns, x, rfl⟩
    · refine Or.inr (Or.inr (Or.inr ⟨?_, m, by rw [List.append_nil]⟩))
      rw [List.append_nil, List.replicate_succ']
      exact List.getLast?_concat _
    · obtain ⟨s, rfl⟩ := hn x (by rw [List.concat_eq_append]; exact List.mem_append_right _ (by simp))
      refine Or.inr (Or.inl ⟨s, ?_, hdrop⟩)
      rw [List.concat_eq_append, ← List.append_assoc]
      exact List.getLast?_concat _

theorem dirParent_inR (p q : RPath) (h : inR p) (hq : dirParent p = Res.ok q) : inR q := by
  rcases inR_getLast_cases p h with rfl | ⟨s, hlast, hdrop⟩ | ⟨hlast, k, hrep⟩ | ⟨hlast, m, hrep⟩
  · injection hq with h'
    rw [← h']
    exact Or.inl ⟨1, [], by simp, allNormal_nil⟩
  · rw [dirParent_named p s (componentsOf_inR p h) hlast] at hq
    injection hq with h'
    rw [← h']
    exact hdrop
  · rw [dirParent_dotdot p (componentsOf_inR p h) hlast] at hq
    injection hq with h'
    rw [← h', hrep]
    exact Or.inl ⟨k + 2, [], by simp [List.replicate_succ', List.append_assoc], allNormal_nil⟩
  · rw [dirParent_root p (componentsOf_inR p h) hlast] at hq
    injection hq with h'
    rw [← h']
    exact h

theorem filter_abs_all_root (l : RPath) :
    (l.filter fun c => isAbsComp c) =
      List.replicate (l.filter fun c => isAbsComp c).length Component.rootDir := by
  refine List.eq_replicate_iff.mpr ⟨rfl, ?_⟩
  intro b hb
  have hmem := List.of_mem_filter hb
  cases b with
  | rootDir => rfl
  | curDir => simp [isAbsComp] at hmem
  | parentDir => simp [isAbsComp] at hmem
  | normal s => simp [isAbsComp] at hmem

theorem inR_abs_filter (l : RPath) (hne : (l.filter fun c => isAbsComp c) ≠ []) :
    inR (l.filter fun c => isAbsComp c) := by
  have hrep := filter_abs_all_root l
  rcases hlen : (l.filter fun c => isAbsComp c).length with _ | n
  · exact absurd (List.eq_nil_of_length_eq_zero hlen) hne
  · rw [hlen] at hrep
    exact Or.inr ⟨n, [], by rw [List.append_nil]; exact hrep, allNormal_nil⟩

/-- Every successful result of the resolver lies in the shape `inR`, provided
the input (for `parent`) or the origin (for `join`) does. -/
theorem inRAux (fs : Fs) : ∀ fuel : Nat,
    (∀ visited p v' q, inR p → rpParent fs fuel visited p = some (v', Res.ok q) → inR q) ∧
    (∀ visited p v' q, inR p → symlinkParent fs fuel visited p = some (v', Res.ok q) →
      inR q) ∧
    (∀ visited rsv rest v' q, inR rsv →
      joinGo fs fuel visited rsv rest = some (v', Res.ok q) → inR q) ∧
    (∀ visited o t v' q, inR o → rpJoin fs fuel visited o t = some (v', Res.ok q) →
      inR q) := by
  intro fuel
  induction fuel using Nat.strong_induction_on with
  | _ fuel ih =>
    have hsym : ∀ visited p v' q, inR p →
        symlinkParent fs fuel visited p = some (v', Res.ok q) → inR q := by
      intro visited p v' q hp h
      cases fuel with
      | zero =>
          rw [symlinkParent] at h
          exact absurd h (by simp)
      | succ g =>
          rcases symlinkParent_cases fs g visited p v' (Res.ok q) h with
            ⟨_, _, hr⟩ | ⟨_, _, _, hr⟩ | ⟨_, _, _, _, hr⟩ |
            ⟨_, t, sd, v2, res, _, hpp, hj, hp2⟩ | ⟨_, _, t, sd, _, hpp, hj⟩
          · exact absurd hr (by simp)
          · exact absurd hr (by simp)
          · exact absurd hr (by simp)
          · have hsd := inR_parentPath p sd hp hpp
            have hres := (ih g (Nat.lt_succ_self g)).2.2.2 _ sd t v2 res hsd hj
            exact (ih g (Nat.lt_succ_self g)).1 v2 res v' q hres hp2
          · have hsd := inR_parentPath p sd hp hpp
            exact (ih g (Nat.lt_succ_self g)).2.2.2 _ sd t v' q hsd hj
    have hpar : ∀ visited p v' q, inR p →
        rpParent fs fuel visited p = some (v', Res.ok q) → inR q := by
      intro visited p v' q hp h
      cases fuel with
      | zero =>
          rw [rpParent] at h
          exact absurd h (by simp)
      | succ g =>
          rcases rpParent_cases fs g visited p v' (Res.ok q) h with
            ⟨_, _, hr⟩ | ⟨_, _, _, hr⟩ | ⟨_, _, hs⟩ | ⟨_, _, _, hr⟩ | ⟨_, _, _, hr⟩
          · injection hr with h'
            rw [h']
            exact Or.inl ⟨1, [], by simp, allNormal_nil⟩
          · exact absurd hr (by simp)
          · have hcp : inR (componentsOf p) := by rw [componentsOf_inR p hp]; exact hp
            exact (ih g (Nat.lt_succ_self g)).2.1 visited _ v' q hcp hs
          · have hcp : inR (componentsOf p) := by rw [componentsOf_inR p hp]; exact hp
            exact dirParent_inR _ q hcp hr.symm
          · have hcp : inR (componentsOf p) := by rw [componentsOf_inR p hp]; exact hp
            exact inR_parentPath _ q hcp (fileParent_ok _ q hr.symm)
    have hgo : ∀ rest visited rsv v' q, inR rsv →
        joinGo fs fuel visited rsv rest = some (v', Res.ok q) → inR q := by
      intro rest
      induction rest with
      | nil =>
          intro visited rsv v' q hrsv h
          obtain ⟨_, hr⟩ := joinGo_nil fs fuel visited rsv v' _ h
          injection hr with h'
          rw [h']
          exact hrsv
      | cons c rest ihr =>
          intro visited rsv v' q hrsv h
          rcases joinGo_cons_cases fs fuel visited rsv c rest v' (Res.ok q) h with
            ⟨_, hg⟩ | ⟨_, _, hr⟩ | ⟨v2, p2, _, hp2, hg⟩ | ⟨_, hp2⟩ | ⟨s, _, hg⟩
          · exact ihr _ _ _ _ hrsv hg
          · exact absurd hr (by simp)
          · exact ihr _ _ _ _ (hpar _ _ _ _ hrsv hp2) hg
          · exact hpar _ _ _ _ hrsv hp2
          · exact ihr _ _ _ _ (inR_push rsv s hrsv) hg
    have hjoin : ∀ visited o t v' q, inR o →
        rpJoin fs fuel visited o t = some (v', Res.ok q) → inR q := by
      intro visited o t v' q ho h
      rw [rpJoin_eq] at h
      by_cases habs : ((componentsOf t).filter fun c => isAbsComp c) = []
      · rw [if_pos habs] at h
        exact hgo _ _ _ _ _ ho h
      · rw [if_neg habs] at h
        exact hgo _ _ _ _ _ (inR_abs_filter _ habs) h
    exact ⟨hpar, hsym, fun visited rsv rest => hgo rest visited rsv, hjoin⟩

theorem componentsOf_replicate_dd (k : Nat) :
    componentsOf (List.replicate k Component.parentDir) =
      List.replicate k Component.parentDir :=
  componentsOf_eq_self _ (fun c hc => by rw [List.eq_of_mem_replicate hc]; simp)

theorem getLast_replicate_succ (j : Nat) (c : Component) :
    (List.replicate (j + 1) c).getLast? = some c := by
  rw [List.replicate_succ']
  exact List.getLast?_concat _

theorem parent_replicate (fs : Fs)
    (hdd : ∀ j, 1 ≤ j →
      fs.lookup (List.replicate j Component.parentDir) = some FileKind.dir)
    (fuel : Nat) (v : List RPath) (k : Nat) :
    rpParent fs (fuel + 1) v (List.replicate k Component.parentDir) =
      some (v, Res.ok (List.replicate (k + 1) Component.parentDir)) := by
  cases k with
  | zero => simp [rpParent, List.replicate]
  | succ j =>
      have hne : List.replicate (j + 1) Component.parentDir ≠ [] := by simp
      rw [rpParent_dir fs fuel v _ hne
        (by rw [componentsOf_replicate_dd]; exact hdd (j + 1) (by omega))]
      rw [componentsOf_replicate_dd,
        dirParent_dotdot _ (componentsOf_replicate_dd (j + 1)) (getLast_replicate_succ j _),
        ← List.replicate_succ']

theorem joinGo_parentDir_step (fs : Fs) (fuel : Nat) (v : List RPath) (rsv : RPath)
    (rest : List Component) (v2 : List RPath) (p2 : RPath)
    (h : rpParent fs fuel v rsv = some (v2, Res.ok p2)) :
    joinGo fs fuel v rsv (Component.parentDir :: rest) = joinGo fs fuel v2 p2 rest := by
  rw [joinGo, h]

theorem joinGo_dd (fs : Fs)
    (hdd : ∀ j, 1 ≤ j →
      fs.lookup (List.replicate j Component.parentDir) = some FileKind.dir)
    (fuel : Nat) (v : List RPath) (rest : List Component) : ∀ k i,
    joinGo fs (fuel + 1) v (List.replicate i Component.parentDir)
        (List.replicate k Component.parentDir ++ rest) =
      joinGo fs (fuel + 1) v (List.replicate (i + k) Component.parentDir) rest := by
  intro k
  induction k with
  | zero => intro i; simp
  | succ j ihk =>
      intro i
      rw [List.replicate_succ, List.cons_append,
        joinGo_parentDir_step fs (fuel + 1) v _ _ v _ (parent_replicate fs hdd fuel v i),
        ihk (i + 1), show i + 1 + j = i + (j + 1) from by omega]

theorem joinGo_names (fs : Fs) (fuel : Nat) (v : List RPath) : ∀ names rsv,
    allNormal names → joinGo fs fuel v rsv names = some (v, Res.ok (rsv ++ names)) := by
  intro names
  induction names with
  | nil =>
      intro rsv _
      rw [joinGo, List.append_nil]
  | cons c rest ihn =>
      intro rsv hn
      obtain ⟨s, rfl⟩ := hn c (List.mem_cons_self c rest)
      rw [joinGo, ihn (rsv ++ [Component.normal s])
        (fun c hc => hn c (List.mem_cons_of_mem _ hc)), List.append_assoc]
      rfl

theorem clean_fix (fs : Fs)
    (hdd : ∀ j, 1 ≤ j →
      fs.lookup (List.replicate j Component.parentDir) = some FileKind.dir)
    (fuel : Nat) (v : List RPath) (q : RPath) (hq : inR q) :
    rpClean fs (fuel + 1) v q = some (v, Res.ok q) := by
  unfold rpClean
  rw [rpJoin_eq, componentsOf_inR q hq]
  rcases hq with ⟨k, names, rfl, hn⟩ | ⟨m, names, rfl, hn⟩
  · have habs : ((List.replicate k Component.parentDir ++ names).filter
        fun c => isAbsComp c) = [] := by
      rw [List.filter_eq_nil_iff]
      intro a ha
      rcases List.mem_append.mp ha with h1 | h1
      · rw [List.eq_of_mem_replicate h1]; simp [isAbsComp]
      · obtain ⟨s, rfl⟩ := hn a h1; simp [isAbsComp]
    have hrel : ((List.replicate k Component.parentDir ++ names).filter
        fun c => !isAbsComp c) = List.replicate k Component.parentDir ++ names := by
      rw [List.filter_eq_self]
      intro a ha
      rcases List.mem_append.mp ha with h1 | h1
      · rw [List.eq_of_mem_replicate h1]; simp [isAbsComp]
      · obtain ⟨s, rfl⟩ := hn a h1; simp [isAbsComp]
    rw [habs, hrel, if_pos rfl,
      show ([] : RPath) = List.replicate 0 Component.parentDir from rfl,
      joinGo_dd fs hdd fuel v names k 0, joinGo_names fs (fuel + 1) v names _ hn,
      show (0 + k) = k from by omega]
  · have habs : ((List.replicate (m + 1) Component.rootDir ++ names).filter
        fun c => isAbsComp c) = List.replicate (m + 1) Component.rootDir := by
      rw [List.filter_append,
        List.filter_eq_self.mpr
          (fun a ha => by rw [List.eq_of_mem_replicate ha]; simp [isAbsComp]),
        List.filter_eq_nil_iff.mpr
          (fun a ha => by obtain ⟨s, rfl⟩ := hn a ha; simp [isAbsComp]),
        List.append_nil]
    have hrel : ((List.replicate (m + 1) Component.rootDir ++ names).filter
        fun c => !isAbsComp c) = names := by
      rw [List.filter_append,
        List.filter_eq_nil_iff.mpr
          (fun a ha => by rw [List.eq_of_mem_replicate ha]; simp [isAbsComp]),
        List.filter_eq_self.mpr
          (fun a ha => by obtain ⟨s, rfl⟩ := hn a ha; simp [isAbsComp]),
        List.nil_append]
    have hne : List.replicate (m + 1) Component.rootDir ≠ [] := by simp
    rw [habs, hrel, if_neg hne, joinGo_names fs (fuel + 1) v names _ hn]

/-- C6: idempotence of clean at the public interface.  `clean` is defined as
`join` onto the empty base (`rpClean` unfolds to `rpJoin` with origin `""`),
and on any filesystem whose chains of leading `..` components are directories
(always true of a real filesystem's current-directory ancestry), a successful
`real_clean(p) = q` satisfies `real_clean(q) = q` — with any sufficient fuel
for the second run, since re-cleaning a cleaned path probes only the `..`
chain. -/
theorem claim_C6_clean_idempotent (fs : Fs)
    (hdd : ∀ j, 1 ≤ j →
      fs.lookup (List.replicate j Component.parentDir) = some FileKind.dir)
    (fuel₁ : Nat) (p q : RPath) (h : realClean fs fuel₁ p = some (Res.ok q)) :
    ∀ fuel₂, realClean fs (fuel₂ + 1) q = some (Res.ok q) := by
  intro fuel₂
  rcases realClean_cases fs fuel₁ p _ h with ⟨v, raw, heq, hr⟩ | ⟨v, heq, hno⟩
  · injection hr with hr'
    have hinR : inR raw := (inRAux fs fuel₁).2.2.2 [] [] p v raw inR_nil heq
    by_cases hraw : raw = []
    · subst hraw
      rw [hr']
      simp [realClean, rpClean, rpJoin, joinGo, componentsOf, isAbsComp, emptyToDot]
    · have hq' : emptyToDot raw = raw := by
        unfold emptyToDot
        rw [if_neg hraw]
      rw [hr', hq']
      have hfix := clean_fix fs hdd fuel₂ [] raw hinR
      unfold realClean
      rw [hfix]
      simp [emptyToDot, hraw]
  · exact absurd rfl (hno q)

/-- A filesystem in which every chain of `..` components is a directory. -/
def fsAscent : Fs where
  lookup := fun p =>
    if p ≠ [] ∧ p.all (fun c => c == Component.parentDir) then some FileKind.dir else none
  readLink := fun _ => none
  canonicalize := fun _ => none

/-- C6 witness: cleaning `../a` twice under `fsAscent`. -/
theorem claim_C6_witness :
    realClean fsAscent 1 [Component.parentDir, Component.normal "a"] =
      some (Res.ok [Component.parentDir, Component.normal "a"]) := by
  have hdd : ∀ j, 1 ≤ j →
      fsAscent.lookup (List.replicate j Component.parentDir) = some FileKind.dir := by
    intro j hj
    have hne : List.replicate j Component.parentDir ≠ [] := by
      intro hcon
      have hlen := congrArg List.length hcon
      simp at hlen
      omega
    simp only [fsAscent]
    rw [if_pos ⟨hne, by
      rw [List.all_eq_true]
      intro c hc
      rw [List.eq_of_mem_replicate hc]
      rfl⟩]
  have h1 : realClean fsAscent 1 [Component.parentDir, Component.normal "a"] =
      some (Res.ok [Component.parentDir, Component.normal "a"]) := by
    simp [realClean, rpClean, rpJoin, joinGo, rpParent, componentsOf, isAbsComp, emptyToDot]
  exact claim_C6_clean_idempotent fsAscent hdd 1 _ _ h1 0

/-- An absolute path in plain form: the root marker followed by normal names.
Symlinks may sit anywhere along such a path. -/
def RootNames (p : RPath) : Prop :=
  ∃ names, p = Component.rootDir :: names ∧ allNormal names

theorem rootNames_absPath (names : List String) : RootNames (absPath names) :=
  ⟨names.map Component.normal, rfl, fun c hc => by
    obtain ⟨s, _, rfl⟩ := List.mem_map.mp hc
    exact ⟨s, rfl⟩⟩

theorem rootNames_ne_nil (p : RPath) (h : RootNames p) : p ≠ [] := by
  obtain ⟨names, rfl, _⟩ := h
  simp

theorem rootNames_componentsOf (p : RPath) (h : RootNames p) : componentsOf p = p := by
  obtain ⟨names, rfl, hn⟩ := h
  refine componentsOf_eq_self _ ?_
  intro c hc
  rcases List.mem_cons.mp hc with rfl | hc2
  · simp
  · obtain ⟨s, rfl⟩ := hn c hc2
    simp

theorem rootNames_root : RootNames [Component.rootDir] := ⟨[], rfl, allNormal_nil⟩

theorem rootNames_push (p : RPath) (s : String) (h : RootNames p) :
    RootNames (p ++ [Component.normal s]) := by
  obtain ⟨names, rfl, hn⟩ := h
  exact ⟨names ++ [Component.normal s], by simp, allNormal_concat names s hn⟩

/-- Splitting a plain absolute path at its last component. -/
theorem rootNames_last_cases (p : RPath) (h : RootNames p) :
    p = [Component.rootDir] ∨
    (∃ d s, p = d ++ [Component.normal s] ∧ RootNames d ∧
      p.getLast? = some (Component.normal s) ∧ p.dropLast = d) := by
  obtain ⟨names, rfl, hn⟩ := h
  rcases List.eq_nil_or_concat names with rfl | ⟨ns, x, rfl⟩
  · exact Or.inl rfl
  · rw [List.concat_eq_append] at hn ⊢
    obtain ⟨s, rfl⟩ := hn x (List.mem_append_right _ (by simp))
    refine Or.inr ⟨Component.rootDir :: ns, s, by simp, ⟨ns, rfl,
      fun c hc => hn c (List.mem_append_left _ hc)⟩, ?_, ?_⟩
    · rw [show Component.rootDir :: (ns ++ [Component.normal s]) =
        (Component.rootDir :: ns) ++ [Component.normal s] from by simp]
      exact List.getLast?_concat _
    · rw [show Component.rootDir :: (ns ++ [Component.normal s]) =
        (Component.rootDir :: ns) ++ [Component.normal s] from by simp]
      exact List.dropLast_concat

/-- Descent of the abstract canonical-depth measure `μ` through the resolver,
for plain absolute paths: a successful parent computation stays a plain
absolute path and either strictly decreases `μ` or lands exactly on the root.
`μ` abstracts the length of the canonicalized path of a real filesystem:
`hdrop` says an existing non-symlink entry sits strictly deeper than its
directory, `hlink` says dereferencing a symlink (resolving its target against
its own directory) preserves canonical depth, `htarget` says link targets
carry at most one root marker (true of any parsed path). -/
theorem muDescentAux (fs : Fs) (μ : RPath → Nat)
    (htarget : ∀ p t, fs.readLink p = some t →
      ((componentsOf t).filter fun c => isAbsComp c) = [] ∨
      ((componentsOf t).filter fun c => isAbsComp c) = [Component.rootDir])
    (hdrop : ∀ q s k, fs.lookup (q ++ [Component.normal s]) = some k →
      k ≠ FileKind.symlink → μ q < μ (q ++ [Component.normal s]))
    (hlink : ∀ p d t fuel v v' w, fs.lookup p = some FileKind.symlink →
      fs.readLink p = some t → parentPath p = some d →
      rpJoin fs fuel v d t = some (v', Res.ok w) → μ w = μ p) : ∀ fuel : Nat,
    (∀ visited p v' q, RootNames p → rpParent fs fuel visited p = some (v', Res.ok q) →
      RootNames q ∧ (μ q < μ p ∨ q = [Component.rootDir])) ∧
    (∀ visited p v' q, RootNames p → fs.lookup p = some FileKind.symlink →
      symlinkParent fs fuel visited p = some (v', Res.ok q) →
      RootNames q ∧ (μ q < μ p ∨ q = [Component.rootDir])) ∧
    (∀ visited rsv rest v' q, RootNames rsv →
      joinGo fs fuel visited rsv rest = some (v', Res.ok q) → RootNames q) ∧
    (∀ visited o t v' q, RootNames o →
      (((componentsOf t).filter fun c => isAbsComp c) = [] ∨
        ((componentsOf t).filter fun c => isAbsComp c) = [Component.rootDir]) →
      rpJoin fs fuel visited o t = some (v', Res.ok q) → RootNames q) := by
  intro fuel
  induction fuel using Nat.strong_induction_on with
  | _ fuel ih =>
    have hsym : ∀ visited p v' q, RootNames p → fs.lookup p = some FileKind.symlink →
        symlinkParent fs fuel visited p = some (v', Res.ok q) →
        RootNames q ∧ (μ q < μ p ∨ q = [Component.rootDir]) := by
      intro visited p v' q hp hlook h
      cases fuel with
      | zero =>
          rw [symlinkParent] at h
          exact absurd h (by simp)
      | succ g =>
          rcases symlinkParent_cases fs g visited p v' (Res.ok q) h with
            ⟨_, _, hr⟩ | ⟨_, _, _, hr⟩ | ⟨_, _, _, _, hr⟩ |
            ⟨_, t, sd, v2, res, hrl, hpp, hj, hp2⟩ | ⟨_, hnok, t, sd, _, _, _⟩
          · exact absurd hr (by simp)
          · exact absurd hr (by simp)
          · exact absurd hr (by simp)
          · have hsd : RootNames sd := by
              rcases rootNames_last_cases p hp with hrt | ⟨d, s, hps, hd, hlast, hdl⟩
              · rw [hrt] at hpp
                exact absurd hpp (by simp [parentPath, componentsOf])
              · rw [parentPath_some_eq p sd hpp, rootNames_componentsOf p hp, hdl]
                exact hd
            have hres : RootNames res :=
              (ih g (Nat.lt_succ_self g)).2.2.2 _ sd t v2 res hsd (htarget p t hrl) hj
            have hmu : μ res = μ p := hlink p sd t g (p :: visited) v2 res hlook hrl hpp hj
            obtain ⟨hq, hdisj⟩ := (ih g (Nat.lt_succ_self g)).1 v2 res v' q hres hp2
            refine ⟨hq, ?_⟩
            rcases hdisj with hlt | hrt
            · exact Or.inl (by omega)
            · exact Or.inr hrt
          · exact absurd rfl (hnok q)
    have hpar : ∀ visited p v' q, RootNames p →
        rpParent fs fuel visited p = some (v', Res.ok q) →
        RootNames q ∧ (μ q < μ p ∨ q = [Component.rootDir]) := by
      intro visited p v' q hp h
      cases fuel with
      | zero =>
          rw [rpParent] at h
          exact absurd h (by simp)
      | succ g =>
          rcases rpParent_cases fs g visited p v' (Res.ok q) h with
            ⟨hnil, _, _⟩ | ⟨_, _, _, hr⟩ | ⟨_, hq2, hs⟩ | ⟨_, hq2, _, hr⟩ | ⟨_, hq2, _, hr⟩
          · exact absurd hnil (rootNames_ne_nil p hp)
          · exact absurd hr (by simp)
          · rw [rootNames_componentsOf p hp] at hq2 hs
            exact (ih g (Nat.lt_succ_self g)).2.1 visited p v' q hp hq2 hs
          · rw [rootNames_componentsOf p hp] at hq2 hr
            rcases rootNames_last_cases p hp with hrt | ⟨d, s, hps, hd, hlast, hdl⟩
            · rw [hrt, dirParent_root [Component.rootDir] rfl rfl] at hr
              injection hr with h'
              rw [h', hrt]
              exact ⟨rootNames_root, Or.inr rfl⟩
            · rw [dirParent_named p s (rootNames_componentsOf p hp) hlast, hdl] at hr
              injection hr with h'
              rw [h']
              refine ⟨hd, Or.inl ?_⟩
              rw [hps] at hq2 ⊢
              exact hdrop d s FileKind.dir hq2 (by simp)
          · rw [rootNames_componentsOf p hp] at hq2 hr
            have hppq := fileParent_ok p q hr.symm
            rcases rootNames_last_cases p hp with hrt | ⟨d, s, hps, hd, hlast, hdl⟩
            · rw [hrt] at hppq
              exact absurd hppq (by simp [parentPath, componentsOf])
            · rw [parentPath_some_eq p q hppq, rootNames_componentsOf p hp, hdl]
              refine ⟨hd, Or.inl ?_⟩
              rw [hps] at hq2
              have := hdrop d s FileKind.file hq2 (by simp)
              rw [hps]
              exact this
    have hgo : ∀ rest visited rsv v' q, RootNames rsv →
        joinGo fs fuel visited rsv rest = some (v', Res.ok q) → RootNames q := by
      intro rest
      induction rest with
      | nil =>
          intro visited rsv v' q hrsv h
          obtain ⟨_, hr⟩ := joinGo_nil fs fuel visited rsv v' _ h
          injection hr with h'
          rw [h']
          exact hrsv
      | cons c rest ihr =>
          intro visited rsv v' q hrsv h
          rcases joinGo_cons_cases fs fuel visited rsv c rest v' (Res.ok q) h with
            ⟨_, hg⟩ | ⟨_, _, hr⟩ | ⟨v2, p2, _, hp2, hg⟩ | ⟨_, hp2⟩ | ⟨s, _, hg⟩
          · exact ihr _ _ _ _ hrsv hg
          · exact absurd hr (by simp)
          · exact ihr _ _ _ _ (hpar _ _ _ _ hrsv hp2).1 hg
          · exact (hpar _ _ _ _ hrsv hp2).1
          · exact ihr _ _ _ _ (rootNames_push rsv s hrsv) hg
    have hjoin : ∀ visited o t v' q, RootNames o →
        (((componentsOf t).filter fun c => isAbsComp c) = [] ∨
          ((componentsOf t).filter fun c => isAbsComp c) = [Component.rootDir]) →
        rpJoin fs fuel visited o t = some (v', Res.ok q) → RootNames q := by
      intro visited o t v' q ho hT h
      rw [rpJoin_eq] at h
      rcases hT with hT | hT
      · rw [hT, if_pos rfl] at h
        exact hgo _ _ _ _ _ ho h
      · rw [hT, if_neg (by simp)] at h
        exact hgo _ _ _ _ _ rootNames_root h
    exact ⟨hpar, hsym, fun visited rsv rest => hgo rest visited rsv, hjoin⟩

theorem stepRoot (fs : Fs) (μ : RPath → Nat)
    (htarget : ∀ p t, fs.readLink p = some t →
      ((componentsOf t).filter fun c => isAbsComp c) = [] ∨
      ((componentsOf t).filter fun c => isAbsComp c) = [Component.rootDir])
    (hdrop : ∀ q s k, fs.lookup (q ++ [Component.normal s]) = some k →
      k ≠ FileKind.symlink → μ q < μ (q ++ [Component.normal s]))
    (hlink : ∀ p d t fuel v v' w, fs.lookup p = some FileKind.symlink →
      fs.readLink p = some t → parentPath p = some d →
      rpJoin fs fuel v d t = some (v', Res.ok w) → μ w = μ p)
    (fuel : Nat) (p q : RPath) (hp : RootNames p)
    (h : realParent fs fuel p = some (Res.ok q)) :
    RootNames q ∧ (μ q < μ p ∨ q = [Component.rootDir]) := by
  rcases realParent_cases fs fuel p _ h with ⟨v, raw, heq, hr⟩ | ⟨v, heq, hno⟩
  · injection hr with hr'
    obtain ⟨hq, hd⟩ := (muDescentAux fs μ htarget hdrop hlink fuel).1 [] p v raw hp heq
    have hraw : emptyToDot raw = raw := by
      unfold emptyToDot
      rw [if_neg (rootNames_ne_nil raw hq)]
    rw [hr', hraw]
    exact ⟨hq, hd⟩
  · exact absurd rfl (hno q)

theorem realParent_fuel_zero (fs : Fs) (p : RPath) : realParent fs 0 p = none := by
  unfold realParent
  rw [rpParent]

theorem realParent_root_ok (fs : Fs)
    (hroot : fs.lookup [Component.rootDir] = some FileKind.dir) (fuel : Nat) (q : RPath)
    (h : realParent fs fuel [Component.rootDir] = some (Res.ok q)) :
    q = [Component.rootDir] := by
  rcases realParent_cases fs fuel [Component.rootDir] _ h with ⟨v, raw, heq, hr⟩ | ⟨v, heq, hno⟩
  · cases fuel with
    | zero =>
        rw [rpParent] at heq
        exact absurd heq (by simp)
    | succ g =>
        injection hr with hr'
        rcases rpParent_cases fs g [] [Component.rootDir] v (Res.ok raw) heq with
          ⟨hnil, _, _⟩ | ⟨_, hq2, _, _⟩ | ⟨_, hq2, _⟩ | ⟨_, hq2, _, hr2⟩ | ⟨_, hq2, _, hr2⟩
        · exact absurd hnil (by simp)
        · rw [show componentsOf [Component.rootDir] = [Component.rootDir] from rfl,
            hroot] at hq2
          exact absurd hq2 (by simp)
        · rw [show componentsOf [Component.rootDir] = [Component.rootDir] from rfl,
            hroot] at hq2
          exact absurd hq2 (by simp)
        · rw [show componentsOf [Component.rootDir] = [Component.rootDir] from rfl,
            dirParent_root [Component.rootDir] rfl rfl] at hr2
          injection hr2 with hr3
          rw [hr', hr3]
          rfl
        · rw [show componentsOf [Component.rootDir] = [Component.rootDir] from rfl,
            hroot] at hq2
          exact absurd hq2 (by simp)
  · exact absurd rfl (hno q)

theorem iterParent_succ_ok (fs : Fs) (fuel m : Nat) (p q : RPath)
    (h : iterParent fs fuel (m + 1) p = some (Res.ok q)) :
    ∃ p1, realParent fs fuel p = some (Res.ok p1) ∧
      iterParent fs fuel m p1 = some (Res.ok q) := by
  rw [iterParent] at h
  cases hstep : realParent fs fuel p with
  | none =>
      rw [hstep] at h
      exact absurd h (by simp)
  | some r =>
      cases r with
      | ok p1 =>
          rw [hstep] at h
          exact ⟨p1, rfl, h⟩
      | err e =>
          rw [hstep] at h
          exact absurd h (by simp)
      | panic site =>
          rw [hstep] at h
          exact absurd h (by simp)

theorem iterParent_root_ok (fs : Fs)
    (hroot : fs.lookup [Component.rootDir] = some FileKind.dir) (fuel : Nat) :
    ∀ m q, iterParent fs fuel m [Component.rootDir] = some (Res.ok q) →
      q = [Component.rootDir] := by
  intro m
  induction m with
  | zero =>
      intro q h
      rw [iterParent] at h
      injection h with h'
      injection h' with h2
      exact h2.symm
  | succ k ihm =>
      intro q h
      obtain ⟨p1, hstep, h2⟩ := iterParent_succ_ok fs fuel k _ q h
      rw [realParent_root_ok fs hroot fuel p1 hstep] at h2
      exact ihm q h2

theorem iterParent_root_fuel (fs : Fs)
    (hroot : fs.lookup [Component.rootDir] = some FileKind.dir) (f : Nat) :
    ∀ extra, iterParent fs (f + 1) extra [Component.rootDir] =
      some (Res.ok [Component.rootDir]) := by
  intro extra
  induction extra with
  | zero => rw [iterParent]
  | succ k ihm =>
      rw [iterParent, realParent_root fs f hroot]
      exact ihm

theorem iterParent_add_ok (fs : Fs) (fuel : Nat) : ∀ n p q extra,
    iterParent fs fuel n p = some (Res.ok q) →
    iterParent fs fuel (n + extra) p = iterParent fs fuel extra q := by
  intro n
  induction n with
  | zero =>
      intro p q extra h
      rw [iterParent] at h
      injection h with h'
      injection h' with h2
      rw [Nat.zero_add, h2]
  | succ k ihn =>
      intro p q extra h
      obtain ⟨p1, hstep, h2⟩ := iterParent_succ_ok fs fuel k p q h
      rw [show k + 1 + extra = (k + extra) + 1 from by omega, iterParent, hstep]
      exact ihn p1 q extra h2

theorem muReach (fs : Fs) (μ : RPath → Nat)
    (hroot : fs.lookup [Component.rootDir] = some FileKind.dir)
    (htarget : ∀ p t, fs.readLink p = some t →
      ((componentsOf t).filter fun c => isAbsComp c) = [] ∨
      ((componentsOf t).filter fun c => isAbsComp c) = [Component.rootDir])
    (hdrop : ∀ q s k, fs.lookup (q ++ [Component.normal s]) = some k →
      k ≠ FileKind.symlink → μ q < μ (q ++ [Component.normal s]))
    (hlink : ∀ p d t fuel v v' w, fs.lookup p = some FileKind.symlink →
      fs.readLink p = some t → parentPath p = some d →
      rpJoin fs fuel v d t = some (v', Res.ok w) → μ w = μ p) :
    ∀ n p q, RootNames p → μ p + 1 ≤ n → ∀ fuel,
      iterParent fs fuel n p = some (Res.ok q) → q = [Component.rootDir] := by
  intro n
  induction n using Nat.strong_induction_on with
  | _ n ihn =>
    intro p q hp hn fuel h
    cases n with
    | zero => omega
    | succ m =>
        obtain ⟨p1, hstep, h2⟩ := iterParent_succ_ok fs fuel m p q h
        obtain ⟨hp1, hd⟩ := stepRoot fs μ htarget hdrop hlink fuel p p1 hp hstep
        rcases hd with hlt | hrt
        · exact ihn m (Nat.lt_succ_self m) p1 q hp1 (by omega) fuel h2
        · rw [hrt] at h2
          exact iterParent_root_ok fs hroot fuel m q h2

theorem rpJoin_singleNormal (fs : Fs) (fuel : Nat) (v : List RPath) (d : RPath) (s : String) :
    rpJoin fs fuel v d [Component.normal s] = some (v, Res.ok (d ++ [Component.normal s])) := by
  rw [rpJoin_eq]
  rw [show componentsOf [Component.normal s] = [Component.normal s] from rfl]
  rw [show ([Component.normal s].filter fun c => isAbsComp c) = [] from rfl]
  rw [show ([Component.normal s].filter fun c => !isAbsComp c) = [Component.normal s] from rfl]
  rw [if_pos rfl]
  exact joinGo_names fs fuel v [Component.normal s] d (fun c hc => ⟨s, by
    cases hc with
    | head => rfl
    | tail _ h2 => cases h2⟩)

/-- C4: root fixpoint and eventual ascent to the root.  `is_real_root` is
true at the root and `real_parent` maps the root to itself; and from any
plain absolute path (root marker plus normal names — symlinks may occur
anywhere along it, including as the final entry and in chains), if `d+1`
iterations of `real_parent` resolve without error, the result is exactly the
root — where `is_real_root` holds — and every longer iteration stays at the
root.  Here `d = μ(path)` for an abstract canonical-depth measure `μ`; on a
real filesystem `μ` is the length of the canonicalized path, and the three
measure hypotheses are facts of real filesystems: an existing non-symlink
entry lies strictly deeper than its directory (`hdrop`), dereferencing a
symlink — resolving its target against its containing directory — preserves
canonical depth (`hlink`), and a stored link target carries at most one
leading root marker (`htarget`, true of any parsed path). -/
theorem claim_C4_root_fixpoint (fs : Fs) (μ : RPath → Nat) (names : List String)
    (hcanon : fs.canonicalize [Component.rootDir] = some [Component.rootDir])
    (hroot : fs.lookup [Component.rootDir] = some FileKind.dir)
    (htarget : ∀ p t, fs.readLink p = some t →
      ((componentsOf t).filter fun c => isAbsComp c) = [] ∨
      ((componentsOf t).filter fun c => isAbsComp c) = [Component.rootDir])
    (hdrop : ∀ q s k, fs.lookup (q ++ [Component.normal s]) = some k →
      k ≠ FileKind.symlink → μ q < μ (q ++ [Component.normal s]))
    (hlink : ∀ p d t fuel v v' w, fs.lookup p = some FileKind.symlink →
      fs.readLink p = some t → parentPath p = some d →
      rpJoin fs fuel v d t = some (v', Res.ok w) → μ w = μ p) :
    isRealRoot fs [Component.rootDir] = some true ∧
    (∀ fuel, realParent fs (fuel + 1) [Component.rootDir] = some (Res.ok [Component.rootDir])) ∧
    (∀ fuel n q, μ (absPath names) + 1 ≤ n →
      iterParent fs fuel n (absPath names) = some (Res.ok q) →
      q = [Component.rootDir] ∧
      ∀ extra, iterParent fs fuel (n + extra) (absPath names) =
        some (Res.ok [Component.rootDir])) := by
  refine ⟨by simp [isRealRoot, hcanon], fun fuel => realParent_root fs fuel hroot, ?_⟩
  intro fuel n q hn h
  have hq := muReach fs μ hroot htarget hdrop hlink n (absPath names) q
    (rootNames_absPath names) hn fuel h
  refine ⟨hq, fun extra => ?_⟩
  cases fuel with
  | zero =>
      exfalso
      cases n with
      | zero => omega
      | succ m =>
          obtain ⟨p1, hstep, _⟩ := iterParent_succ_ok fs 0 m _ q h
          rw [realParent_fuel_zero] at hstep
          exact absurd hstep (by simp)
  | succ f =>
      rw [iterParent_add_ok fs (f + 1) n _ q extra h, hq]
      exact iterParent_root_fuel fs hroot f extra

/-- A small filesystem with a symlink on the way to the root: `/`, symlink
`/a -> b` (relative target), plain file `/b`, and plain file `/a/c` (reached
through the symlink). -/
def fsLink : Fs where
  lookup := fun p =>
    if p = [Component.rootDir] then some FileKind.dir
    else if p = [Component.rootDir, Component.normal "a"] then some FileKind.symlink
    else if p = [Component.rootDir, Component.normal "b"] then some FileKind.file
    else if p = [Component.rootDir, Component.normal "a", Component.normal "c"] then
      some FileKind.file
    else none
  readLink := fun p =>
    if p = [Component.rootDir, Component.normal "a"] then some [Component.normal "b"]
    else none
  canonicalize := fun p => if p = [Component.rootDir] then some [Component.rootDir] else none

/-- C4 witness at `fsLink` with `μ` the path length, starting from `/a/c`
whose ancestry passes through the symlink `/a`: four iterations reach the
root and a fifth stays there. -/
theorem claim_C4_witness :
    isRealRoot fsLink [Component.rootDir] = some true ∧
    realParent fsLink 1 [Component.rootDir] = some (Res.ok [Component.rootDir]) ∧
    iterParent fsLink 3 (4 + 1) (absPath ["a", "c"]) = some (Res.ok [Component.rootDir]) := by
  have htarget : ∀ p t, fsLink.readLink p = some t →
      ((componentsOf t).filter fun c => isAbsComp c) = [] ∨
      ((componentsOf t).filter fun c => isAbsComp c) = [Component.rootDir] := by
    intro p t h
    simp only [fsLink] at h
    split_ifs at h
    · injection h with h'
      rw [← h']
      exact Or.inl rfl
  have hdrop : ∀ (q : RPath) s k, fsLink.lookup (q ++ [Component.normal s]) = some k →
      k ≠ FileKind.symlink → q.length < (q ++ [Component.normal s]).length := by
    intro q s k _ _
    simp
  have hlink : ∀ p d t fuel v v' w, fsLink.lookup p = some FileKind.symlink →
      fsLink.readLink p = some t → parentPath p = some d →
      rpJoin fsLink fuel v d t = some (v', Res.ok w) → w.length = p.length := by
    intro p d t fuel v v' w hsym hrl hpp hj
    have hpa : p = [Component.rootDir, Component.normal "a"] := by
      simp only [fsLink] at hsym
      split_ifs at hsym with h1 h2 h3 h4
      · exact absurd hsym (by simp)
      · exact h2
      · exact absurd hsym (by simp)
      · exact absurd hsym (by simp)
    subst hpa
    have hta : t = [Component.normal "b"] := by
      simp [fsLink] at hrl
      exact hrl.symm
    subst hta
    have hda : d = [Component.rootDir] := by
      have := parentPath_some_eq _ d hpp
      rw [this]
      rfl
    subst hda
    rw [rpJoin_singleNormal fsLink fuel v [Component.rootDir] "b"] at hj
    injection hj with h'
    injection h' with h1 h2
    injection h2 with h3
    rw [← h3]
    rfl
  obtain ⟨h1, h2, h3⟩ := claim_C4_root_fixpoint fsLink List.length ["a", "c"]
    (by simp [fsLink]) (by simp [fsLink]) htarget hdrop hlink
  refine ⟨h1, h2 0, ?_⟩
  have hbase : iterParent fsLink 3 4 (absPath ["a", "c"]) =
      some (Res.ok [Component.rootDir]) := by
    simp [iterParent, realParent, rpParent, symlinkParent, rpJoin, joinGo, fsLink,
      componentsOf, parentPath, fileName, fileParent, dirParent, emptyToDot, isAbsComp,
      absPath]
  exact (h3 3 4 [Component.rootDir] (by simp [absPath]) hbase).2 1
